import Mathlib

/-!
# CTFileAPI: the `/api/submit` route of `lib/routes.js`

A shallow embedding of the submission handler (lines 104-162 of `lib/routes.js`)
together with the JavaScript and Node primitives it calls, followed by the
properties established about it.

* JavaScript strings are lists of characters.
* JavaScript numbers are IEEE-754 doubles.  Every number the handler stores is a
  non-negative integer-valued double, `NaN` or `Infinity`; the only fractional
  value is the transient product `score * 1.1`, kept as a numerator over `2 ^ 52`.
  Rounding to the nearest double (ties to even) is computed exactly on naturals.
* The file system, the digest `sha3_512` and `String.prototype.toLowerCase` are
  fields of the environment `Env`.
* The two Mongo collections are lists of documents in insertion order; a value written
  to a document is stored as given.
* The middlewares in front of the handler (`requiresLogin`, `checkCompetitionTime`) are
  not part of it; a request here is one that has passed them.
-/

namespace CTFileAPI

/-- JavaScript string. -/
abbrev Str := List Char

/-! ## Strings -/

/-- The character class `\s` of a JavaScript regular expression (white space and line
terminators of ECMAScript), which is also what `parseInt` skips in front of its input. -/
def isWhiteSpace (c : Char) : Bool :=
  let n := c.toNat
  n == 0x09 || n == 0x0A || n == 0x0B || n == 0x0C || n == 0x0D || n == 0x20 ||
  n == 0xA0 || n == 0x1680 || (0x2000 ≤ n && n ≤ 0x200A) || n == 0x2028 || n == 0x2029 ||
  n == 0x202F || n == 0x205F || n == 0x3000 || n == 0xFEFF

/-- The replacement `s.replace(/\s/g, '')`. -/
def removeWhiteSpace (s : Str) : Str := s.filter (fun c => !isWhiteSpace c)

/-- The replacement `s.replace(/\//g, '')`. -/
def removeSlashes (s : Str) : Str := s.filter (fun c => c != '/')

/-- The method `s.split(sep)` for a one-character separator. -/
def splitOn (sep : Char) : Str → List Str
  | [] => [[]]
  | c :: cs =>
    if c = sep then [] :: splitOn sep cs
    else
      match splitOn sep cs with
      | [] => [[c]]
      | h :: t => (c :: h) :: t

/-- The method `parts.join(sep)` for a one-character separator. -/
def joinWith (sep : Char) : List Str → Str
  | [] => []
  | [s] => s
  | s :: t :: rest => s ++ sep :: joinWith sep (t :: rest)

/-- The method `hay.includes(needle)`: `needle` occurs in `hay` as a contiguous substring. -/
def includes (hay needle : Str) : Bool :=
  hay.tails.any (fun t => needle.isPrefixOf t)

/-! ## Numbers -/

/-- The numbers the handler computes with: `NaN`, `Infinity`, or a finite non-negative
integer-valued double. -/
inductive JSNum where
  | nan : JSNum
  | inf : JSNum
  | fin (n : Nat) : JSNum
  deriving DecidableEq, Repr

/-- Worker of `bitLength`; the first argument bounds the number of halvings. -/
def bitLengthAux : Nat → Nat → Nat
  | 0, _ => 0
  | f + 1, n => if n = 0 then 0 else bitLengthAux f (n / 2) + 1

/-- Number of binary digits of `n`. -/
def bitLength (n : Nat) : Nat := bitLengthAux n n

/-- The quotient `n / 2 ^ s` rounded to the nearest natural, ties to the even one. -/
def roundShift (n s : Nat) : Nat :=
  let q := n / 2 ^ s
  let r := n % 2 ^ s
  let h := 2 ^ s / 2
  if s = 0 then q
  else if r < h then q
  else if h < r then q + 1
  else if q % 2 = 0 then q else q + 1

/-- The natural `n` rounded to 53 significant binary digits (round to nearest, ties to
even): the double nearest to `n`, before the overflow test. -/
def roundNat (n : Nat) : Nat :=
  let s := bitLength n - 53
  roundShift n s * 2 ^ s

/-- The first natural too large for a finite double after rounding, `2 ^ 1024`. -/
def overflowBound : Nat := 1 <<< 1024

/-- The Number value of the mathematical natural `n`. -/
def JSNum.ofNat (n : Nat) : JSNum :=
  let r := roundNat n
  if r < overflowBound then JSNum.fin r else JSNum.inf

/-- Decimal digit test. -/
def isDigit (c : Char) : Bool := 48 ≤ c.toNat && c.toNat ≤ 57

/-- Mathematical value of a run of decimal digits. -/
def digitsValue (ds : Str) : Nat := ds.foldl (fun acc d => 10 * acc + (d.toNat - 48)) 0

/-- The call `parseInt(seg, 10)` where `seg` is an element of `name.split('-')`, or
`undefined` (`none`) when the array is too short.  White space is skipped, one sign is
accepted, then the longest run of decimal digits is read; no digit gives `NaN`.  A piece of
`split('-')` holds no `'-'`, so the only sign that can occur is `'+'`. -/
def parseIntSegment : Option Str → JSNum
  | none => JSNum.nan
  | some seg =>
    let t := seg.dropWhile isWhiteSpace
    let u := if t.head? = some '+' then t.tail else t
    let ds := u.takeWhile isDigit
    if ds = [] then JSNum.nan else JSNum.ofNat (digitsValue ds)

/-- The expression `x || 0` on a number: `NaN` and `0` are falsy. -/
def orZero : JSNum → JSNum
  | JSNum.nan => JSNum.fin 0
  | x => x

/-- Significand of the double `1.1`, which is exactly `onePointOne / 2 ^ 52`. -/
def onePointOne : Nat := 4953959590107546

/-- A double that may carry a fraction: `val r` is the number `r / 2 ^ 52`. -/
inductive JSFrac where
  | nan : JSFrac
  | inf : JSFrac
  | val (r : Nat) : JSFrac
  deriving DecidableEq, Repr

/-- The product `score * 1.1`: the exact product with the double `1.1`, rounded to the
nearest double. -/
def timesOnePointOne : JSNum → JSFrac
  | JSNum.nan => JSFrac.nan
  | JSNum.inf => JSFrac.inf
  | JSNum.fin n =>
    let r := roundNat (n * onePointOne)
    if r < overflowBound * 2 ^ 52 then JSFrac.val r else JSFrac.inf

/-- Worker of `decLength`; the first argument bounds the number of divisions. -/
def decLengthAux : Nat → Nat → Nat
  | 0, _ => 0
  | f + 1, n => if n = 0 then 0 else decLengthAux f (n / 10) + 1

/-- Number of decimal digits of `n`. -/
def decLength (n : Nat) : Nat := decLengthAux n n

/-- Most significant decimal digit of `n`. -/
def leadingDigit (n : Nat) : Nat := n / 10 ^ (decLength n - 1)

/-- First digit of `Number.prototype.toString` for an integer-valued double `x ≥ 1e21`:
the output is in exponent form `d.ddde+N` with the fewest digits that read back as `x`, so
the search tries 1, 2, ..., 17 significant digits around `x`. -/
def shortestLeadingDigit (x : Nat) : Nat :=
  let n := decLength x
  let found := (List.range 17).findSome? (fun i =>
    let p := 10 ^ (n - (i + 1))
    let lo := x / p
    if roundNat (lo * p) = x then some (leadingDigit lo)
    else if roundNat ((lo + 1) * p) = x then some (leadingDigit (lo + 1))
    else none)
  found.getD (leadingDigit x)

/-- The call `parseInt(x, 10)` on a number: `x` is first converted to a string.  Below
`1e21` the string is in positional form and its integer part is read (a product
`score * 1.1` is 0 or at least 1.1, so the small-number exponent form does not occur);
from `1e21` on it is in exponent form and only the first digit is read; `"NaN"` and
`"Infinity"` give `NaN`. -/
def parseIntNumber : JSFrac → JSNum
  | JSFrac.nan => JSNum.nan
  | JSFrac.inf => JSNum.nan
  | JSFrac.val r =>
    if r < 10 ^ 21 * 2 ^ 52 then JSNum.fin (r / 2 ^ 52)
    else JSNum.fin (shortestLeadingDigit (r / 2 ^ 52))

/-- The sum `a + b` of two numbers. -/
def JSNum.add : JSNum → JSNum → JSNum
  | JSNum.nan, _ => JSNum.nan
  | _, JSNum.nan => JSNum.nan
  | JSNum.inf, _ => JSNum.inf
  | _, JSNum.inf => JSNum.inf
  | JSNum.fin a, JSNum.fin b => JSNum.ofNat (a + b)

/-! ## Paths (`path` module of Node, POSIX flavour) -/

/-- The segment-wise normalisation behind `path.resolve` for an absolute path: empty and
`.` segments are dropped and `..` removes the segment before it (nothing at the root). -/
def normalizeSegments (segs : List Str) : List Str :=
  segs.foldl (fun acc s =>
    if s = [] ∨ s = ['.'] then acc
    else if s = ['.', '.'] then acc.dropLast
    else acc ++ [s]) []

/-- Absolute path test: the first character is `/`. -/
def isAbsolute (p : Str) : Bool := p.head? = some '/'

/-- Segments of `path.resolve(a, b)` in a process whose working directory is `cwd`
(itself absolute): arguments are taken from the right until an absolute one is met. -/
def resolveSegments (cwd a b : Str) : List Str :=
  let raw :=
    if isAbsolute b then b
    else if isAbsolute a then a ++ '/' :: b
    else cwd ++ '/' :: (a ++ '/' :: b)
  normalizeSegments (splitOn '/' raw)

/-- The call `path.resolve(a, b)`. -/
def pathResolve (cwd a b : Str) : Str := '/' :: joinWith '/' (resolveSegments cwd a b)

/-- Length of the longest common prefix of two segment lists. -/
def commonPrefixLength : List Str → List Str → Nat
  | x :: xs, y :: ys => if x = y then commonPrefixLength xs ys + 1 else 0
  | _, _ => 0

/-- The call `path.relative(frm, dest)`: both arguments are resolved, the common leading
segments are dropped, one `..` is emitted for every remaining segment of `frm`, followed
by the remaining segments of `dest`. -/
def pathRelative (cwd frm dest : Str) : Str :=
  let f := resolveSegments cwd [] frm
  let t := resolveSegments cwd [] dest
  let c := commonPrefixLength f t
  joinWith '/' (List.replicate (f.length - c) ['.', '.'] ++ t.drop c)

/-! ## Collections -/

/-- Document of the `Score` collection. -/
structure ScoreDoc where
  username : Str
  question : Str
  score : JSNum
  deriving DecidableEq, Repr

/-- Document of the `User` collection. -/
structure UserDoc where
  id : Nat
  username : Str
  score : JSNum
  deriving DecidableEq, Repr

/-- The two collections the handler reads and writes, in insertion order. -/
structure DB where
  scores : List ScoreDoc
  users : List UserDoc
  deriving DecidableEq, Repr

/-- The query `Score.findOne({ question: q })`. -/
def findByQuestion (scores : List ScoreDoc) (q : Str) : Option ScoreDoc :=
  scores.find? (fun d => decide (d.question = q))

/-- The query `Score.findOne({ username: u, question: q })`. -/
def findByUserQuestion (scores : List ScoreDoc) (u q : Str) : Option ScoreDoc :=
  scores.find? (fun d => decide (d.username = u ∧ d.question = q))

/-- The update `Score.findOneAndUpdate({ username: u, question: q }, { score: s },
{ upsert: true })`: the first matching document gets the new score; without a match a
document with the fields of the query and the new score is inserted. -/
def upsertScore (u q : Str) (s : JSNum) : List ScoreDoc → List ScoreDoc
  | [] => [⟨u, q, s⟩]
  | d :: ds =>
    if d.username = u ∧ d.question = q then { d with score := s } :: ds
    else d :: upsertScore u q s ds

/-- The update `User.findByIdAndUpdate(id, { score: s })`: the document with that id, if
any, gets the new score. -/
def updateUserScore (id : Nat) (s : JSNum) : List UserDoc → List UserDoc
  | [] => []
  | d :: ds =>
    if d.id = id then { d with score := s } :: ds
    else d :: updateUserScore id s ds

/-- Stored total score of the user with the given id. -/
def storedScore (users : List UserDoc) (id : Nat) : Option JSNum :=
  (users.find? (fun d => decide (d.id = id))).map (fun d => d.score)

/-! ## The handler of `POST /api/submit` -/

/-- Ways in which `fs.readFile` fails. -/
inductive ReadFault where
  | missing : ReadFault
  | other : ReadFault
  deriving DecidableEq, Repr

deriving instance DecidableEq for Except

/-- What the handler is given from outside the request: the working directory, the root
of the challenge store (`questionsPath`), the file system, the digest and the lower-casing
of the platform. -/
structure Env where
  cwd : Str
  questionsPath : Str
  stat : Str → Bool
  readFile : Str → Except ReadFault Str
  sha3_512 : Str → Str
  toLowerCase : Str → Str

/-- The session user `req.user`. -/
structure SessionUser where
  id : Nat
  username : Str
  score : JSNum
  deriving DecidableEq, Repr

/-- A request: the `Content-Type` header (`none` when absent), the `question` and `flag`
fields of the JSON body (a field that is absent is the empty string, equally falsy), and
the session user. -/
structure Request where
  contentType : Option Str
  question : Str
  flag : Str
  user : SessionUser
  deriving DecidableEq, Repr

/-- The three `BadRequest` errors of the handler. -/
inductive BadRequest where
  | contentType : BadRequest
  | missingField : BadRequest
  | invalidQuestionName : BadRequest
  deriving DecidableEq, Repr

/-- How a request ends: an error passed to `next`, or one of the two JSON answers. -/
inductive Outcome where
  | typeError : Outcome
  | badRequest (e : BadRequest) : Outcome
  | notFound : Outcome
  | internal : Outcome
  | invalidFlag : Outcome
  | credited : Outcome
  | alreadySubmitted : Outcome
  deriving DecidableEq, Repr

/-- File-system accesses, for the access log. -/
inductive FsOp where
  | stat (p : Str) : FsOp
  | read (p : Str) : FsOp
  deriving DecidableEq, Repr

/-- Result of handling a request: the outcome, the collections afterwards and the
file-system accesses made, oldest first. -/
structure Result where
  outcome : Outcome
  db : DB
  fsLog : List FsOp
  deriving DecidableEq, Repr

/-- The chain `.replace(/\s/g, '').toLowerCase()` applied to both digests. -/
def normalizeHash (E : Env) (s : Str) : Str := E.toLowerCase (removeWhiteSpace s)

/-- The path of the challenge, `path.resolve(questionsPath, req.body.question)`. -/
def questionPathOf (E : Env) (question : Str) : Str :=
  pathResolve E.cwd E.questionsPath question

/-- The key of the challenge, `path.relative(questionsPath, questionPath)` with every `/`
removed. -/
def questionNameOf (E : Env) (questionPath : Str) : Str :=
  removeSlashes (pathRelative E.cwd E.questionsPath questionPath)

/-- The base score `parseInt(questionName.split('-')[1], 10) || 0`. -/
def baseScore (questionName : Str) : JSNum :=
  orZero (parseIntSegment ((splitOn '-' questionName).get? 1))

/-- The bonus score `parseInt(score * 1.1, 10)`. -/
def bonusScore (score : JSNum) : JSNum := parseIntNumber (timesOnePointOne score)

/-- The score awarded for a challenge (lines 131-135): the base score, replaced by the
bonus score when no `Score` document for the challenge exists. -/
def award (scores : List ScoreDoc) (questionName : Str) : JSNum :=
  let score := baseScore questionName
  if (findByQuestion scores questionName).isNone then bonusScore score else score

/-- The correct-flag branch (lines 130-157). -/
def credit (db : DB) (user : SessionUser) (questionName : Str) : Outcome × DB :=
  let score := award db.scores questionName
  match findByUserQuestion db.scores user.username questionName with
  | none =>
    let scores := upsertScore user.username questionName score db.scores
    let users := updateUserScore user.id (JSNum.add user.score score) db.users
    (Outcome.credited, ⟨scores, users⟩)
  | some _ => (Outcome.alreadySubmitted, db)

/-- The handler of `POST /api/submit` (lines 104-162), run without interruption. -/
def submit (E : Env) (db : DB) (req : Request) : Result :=
  match req.contentType with
  | none => ⟨Outcome.typeError, db, []⟩
  | some ct =>
    if !includes ct "application/json".toList then
      ⟨Outcome.badRequest BadRequest.contentType, db, []⟩
    else if req.question = [] ∨ req.flag = [] then
      ⟨Outcome.badRequest BadRequest.missingField, db, []⟩
    else
      let questionPath := questionPathOf E req.question
      if !includes questionPath E.questionsPath then
        ⟨Outcome.badRequest BadRequest.invalidQuestionName, db, []⟩
      else if !E.stat questionPath then
        ⟨Outcome.notFound, db, [FsOp.stat questionPath]⟩
      else
        let flagPath := pathResolve E.cwd questionPath "flag.sha3-512".toList
        let log := [FsOp.stat questionPath, FsOp.read flagPath]
        match E.readFile flagPath with
        | Except.error _ => ⟨Outcome.internal, db, log⟩
        | Except.ok hash =>
          let trueFlagHash := normalizeHash E hash
          let userFlagHash := normalizeHash E (E.sha3_512 req.flag)
          if trueFlagHash = userFlagHash then
            let questionName := questionNameOf E questionPath
            let r := credit db req.user questionName
            ⟨r.1, r.2, log⟩
          else ⟨Outcome.invalidFlag, db, log⟩

/-- The handler applied to a list of requests, one after the other. -/
def submitAll (E : Env) : DB → List Request → DB
  | db, [] => db
  | db, r :: rs => submitAll E (submit E db r).db rs

/-! ## Interleaved requests

Between two `yield`s a request runs alone; at a `yield` another request may run.  The
correct-flag branch has four database operations, each behind a `yield`. -/

/-- Where a request stands in the correct-flag branch: before `Score.findOne({ question })`
(`start`); before `Score.findOne(query)`, the score being computed (`scored`); before the
upsert, the query having found nothing (`absent`); before the update of the user
(`recorded`); or answered (`done`). -/
inductive Stage where
  | start : Stage
  | scored (score : JSNum) : Stage
  | absent (score : JSNum) : Stage
  | recorded (score : JSNum) : Stage
  | done (o : Outcome) : Stage
  deriving DecidableEq, Repr

/-- A request inside the correct-flag branch. -/
structure Task where
  user : SessionUser
  questionName : Str
  stage : Stage
  deriving DecidableEq, Repr

/-- One database operation of a request, run against the current collections. -/
def stepTask (db : DB) (t : Task) : DB × Task :=
  match t.stage with
  | Stage.start => (db, { t with stage := Stage.scored (award db.scores t.questionName) })
  | Stage.scored s =>
    match findByUserQuestion db.scores t.user.username t.questionName with
    | none => (db, { t with stage := Stage.absent s })
    | some _ => (db, { t with stage := Stage.done Outcome.alreadySubmitted })
  | Stage.absent s =>
    (⟨upsertScore t.user.username t.questionName s db.scores, db.users⟩,
      { t with stage := Stage.recorded s })
  | Stage.recorded s =>
    (⟨db.scores, updateUserScore t.user.id (JSNum.add t.user.score s) db.users⟩,
      { t with stage := Stage.done Outcome.credited })
  | Stage.done _ => (db, t)

/-- The collections together with the requests in flight. -/
structure Sys where
  db : DB
  tasks : List Task
  deriving DecidableEq, Repr

/-- The request at position `i` performs its next operation. -/
def stepAt (i : Nat) (sys : Sys) : Sys :=
  match sys.tasks.get? i with
  | none => sys
  | some t =>
    let r := stepTask sys.db t
    ⟨r.1, sys.tasks.set i r.2⟩

/-- An interleaving: the positions of the requests that move, in order. -/
def runSchedule : List Nat → Sys → Sys
  | [], sys => sys
  | i :: is, sys => runSchedule is (stepAt i sys)

/-- The request has been answered. -/
def Stage.isDone : Stage → Bool
  | Stage.done _ => true
  | _ => false

/-- Upper bound on the number of database operations a request still has to perform. -/
def Stage.rank : Stage → Nat
  | Stage.start => 4
  | Stage.scored _ => 3
  | Stage.absent _ => 2
  | Stage.recorded _ => 1
  | Stage.done _ => 0

/-- The rank of the request at position `i`, 0 when there is none. -/
def rankAt (sys : Sys) (i : Nat) : Nat :=
  match sys.tasks.get? i with
  | none => 0
  | some t => t.stage.rank

/-- Every request has been answered. -/
def allDone (sys : Sys) : Prop := ∀ t ∈ sys.tasks, t.stage.isDone = true

/-- The state in which `n` requests of the same session user for the same challenge have
all reached the correct-flag branch. -/
def concurrentSubmits (db : DB) (user : SessionUser) (questionName : Str) (n : Nat) : Sys :=
  ⟨db, List.replicate n ⟨user, questionName, Stage.start⟩⟩

/-! ## Predicates on requests -/

/-- The request passes the three guards in front of the file system: the content type,
the two body fields, and the test `questionPath.includes(questionsPath)`. -/
def PassesGuards (E : Env) (req : Request) : Prop :=
  (∃ ct, req.contentType = some ct ∧ includes ct "application/json".toList = true) ∧
  req.question ≠ [] ∧ req.flag ≠ [] ∧
  includes (questionPathOf E req.question) E.questionsPath = true

/-- The path of the stored digest, `path.resolve(questionPath, 'flag.sha3-512')`. -/
def flagPathOf (E : Env) (question : Str) : Str :=
  pathResolve E.cwd (questionPathOf E question) "flag.sha3-512".toList

/-- The request passes the guards, its challenge path exists and the stored digest is read
as `stored`. -/
def ReadsDigest (E : Env) (req : Request) (stored : Str) : Prop :=
  PassesGuards E req ∧ E.stat (questionPathOf E req.question) = true ∧
  E.readFile (flagPathOf E req.question) = Except.ok stored

/-- A correct submission: the stored digest is read and matches the digest of the flag. -/
def Correct (E : Env) (req : Request) : Prop :=
  ∃ stored, ReadsDigest E req stored ∧
    normalizeHash E stored = normalizeHash E (E.sha3_512 req.flag)

/-- The key under which the request is recorded. -/
def keyOf (E : Env) (req : Request) : Str :=
  questionNameOf E (questionPathOf E req.question)

/-- The request took the correct-flag branch. -/
def Accepted (r : Result) : Prop :=
  r.outcome = Outcome.credited ∨ r.outcome = Outcome.alreadySubmitted

/-- Two stored contents that differ only in letter case and in white space: they arise
from two strings without white space that have the same lower-casing, by inserting white
space anywhere on either side. -/
inductive CaseSpaceVariant (lower : Str → Str) : Str → Str → Prop where
  | letters (s t : Str) : (∀ c ∈ s, isWhiteSpace c = false) →
      (∀ c ∈ t, isWhiteSpace c = false) → lower s = lower t → CaseSpaceVariant lower s t
  | spaceLeft (a b t : Str) (c : Char) : isWhiteSpace c = true →
      CaseSpaceVariant lower (a ++ b) t → CaseSpaceVariant lower (a ++ c :: b) t
  | spaceRight (s a b : Str) (c : Char) : isWhiteSpace c = true →
      CaseSpaceVariant lower s (a ++ b) → CaseSpaceVariant lower s (a ++ c :: b)

/-- The base score in the words of the specification: the decimal integer that the second
`-`-separated segment of the name starts with, and 0 when there is no second segment or it
does not start with a decimal digit. -/
def specBaseScore (name : Str) : Nat :=
  match (splitOn '-' name).get? 1 with
  | none => 0
  | some seg => digitsValue (seg.takeWhile isDigit)

/-- One `Score` document for the challenge `c` per request, in order: the first with the
score `first`, every later one with the score `later`. -/
def solvesWith (c : Str) (first later : JSNum) : List Request → List ScoreDoc
  | [] => []
  | r :: rs =>
    ⟨r.user.username, c, first⟩ :: rs.map (fun r' => ⟨r'.user.username, c, later⟩)

/-- The `Score` documents the specification expects after a run of first-time solvers of a
challenge `c` with base score `b`: the first solver with `floor(b * 11 / 10)`, every later
one with `b`. -/
def expectedSolves (c : Str) (b : Nat) : List Request → List ScoreDoc :=
  solvesWith c (JSNum.fin (b * 11 / 10)) (JSNum.fin b)

/-- A segment as `path.resolve` leaves it: not empty, not `.`, not `..`, without `/`. -/
def CleanSegment (s : Str) : Prop :=
  s ≠ [] ∧ s ≠ ['.'] ∧ s ≠ ['.', '.'] ∧ '/' ∉ s

/-- The `Score` document that `n` racing requests of `user` for the challenge `q` end up
with: it carries the score awarded against the collections `db` they all started from. -/
def raceDoc (db : DB) (user : SessionUser) (q : Str) : ScoreDoc :=
  ⟨user.username, q, award db.scores q⟩

/-- The users after one credit of the racing requests. -/
def raceUsers (db : DB) (user : SessionUser) (q : Str) : List UserDoc :=
  updateUserScore user.id (JSNum.add user.score (award db.scores q)) db.users

/-- What holds in every state that racing requests of `user` for `q`, started on `db`,
can reach.  Either nothing has been written yet and every request is in front of one of
its first three operations with the score awarded against `db`; or the one `Score`
document has been written, and then either the user is untouched, nobody has been
credited and some request is about to update the user, or the user carries the one
credit and some request has updated the user or is about to. -/
def RaceInv (db : DB) (user : SessionUser) (q : Str) (sys : Sys) : Prop :=
  (∀ t ∈ sys.tasks, t.user = user ∧ t.questionName = q) ∧
  ((sys.db = db ∧
      ∀ t ∈ sys.tasks, t.stage = Stage.start ∨ t.stage = Stage.scored (award db.scores q) ∨
        t.stage = Stage.absent (award db.scores q)) ∨
   (sys.db.scores = db.scores ++ [raceDoc db user q] ∧
     (∀ t ∈ sys.tasks, t.stage = Stage.start ∨ (∃ s, t.stage = Stage.scored s) ∨
        t.stage = Stage.absent (award db.scores q) ∨
        t.stage = Stage.recorded (award db.scores q) ∨
        t.stage = Stage.done Outcome.credited ∨
        t.stage = Stage.done Outcome.alreadySubmitted) ∧
     ((sys.db.users = db.users ∧ (∀ t ∈ sys.tasks, t.stage ≠ Stage.done Outcome.credited) ∧
        ∃ t ∈ sys.tasks, t.stage = Stage.recorded (award db.scores q)) ∨
      (sys.db.users = raceUsers db user q ∧
        ∃ t ∈ sys.tasks, t.stage = Stage.recorded (award db.scores q) ∨
          t.stage = Stage.done Outcome.credited))))

/-- Lexical containment of a resolved path in the root: the segments of the root are the
leading segments of the path. -/
def lexicallyContained (root p : Str) : Bool :=
  (normalizeSegments (splitOn '/' root)).isPrefixOf (normalizeSegments (splitOn '/' p))

/-- Score stored in the `Score` document of a user for a challenge. -/
def recordedScore (scores : List ScoreDoc) (u q : Str) : Option JSNum :=
  (findByUserQuestion scores u q).map (fun d => d.score)

/-! ## A worked deployment

A small store used to evaluate the handler: the root is `/app/questions`; a directory
`/app/questions-old` lies next to it. -/

/-- Stand-in for the digest in the worked deployment. -/
def toyDigest (flag : Str) : Str := flag.reverse

/-- Directories of the worked deployment. -/
def toyDirs : List Str :=
  ["/app/questions/crypto-500-warmup".toList,
   "/app/questions/web-100-a".toList,
   "/app/questions/web-100-a/b".toList,
   "/app/questions/web-100-ab".toList,
   "/app/questions/web-100-b".toList,
   "/app/questions/misc-50-unfinished".toList,
   "/app/questions/pwn-1000000000000000000000-x".toList,
   "/app/questions-old/web-100-x".toList]

/-- Digest files of the worked deployment; every flag is `s3cret`. -/
def toyFiles : List (Str × Str) :=
  [("/app/questions/crypto-500-warmup/flag.sha3-512".toList, "TERC 3S\n".toList),
   ("/app/questions/web-100-a/flag.sha3-512".toList, "terc3s".toList),
   ("/app/questions/web-100-a/b/flag.sha3-512".toList, "terc3s".toList),
   ("/app/questions/web-100-ab/flag.sha3-512".toList, "terc3s".toList),
   ("/app/questions/web-100-b/flag.sha3-512".toList, "terc3s".toList),
   ("/app/questions/pwn-1000000000000000000000-x/flag.sha3-512".toList, "terc3s".toList),
   ("/app/questions-old/web-100-x/flag.sha3-512".toList, "terc3s".toList)]

/-- The worked deployment with the given digest files. -/
def toyEnvWith (files : List (Str × Str)) : Env where
  cwd := "/srv".toList
  questionsPath := "/app/questions".toList
  stat := fun p => decide (p ∈ toyDirs)
  readFile := fun p =>
    match files.find? (fun f => decide (f.1 = p)) with
    | some f => Except.ok f.2
    | none => Except.error ReadFault.missing
  sha3_512 := toyDigest
  toLowerCase := fun s => s.map Char.toLower

/-- The worked deployment. -/
def toyEnv : Env := toyEnvWith toyFiles

/-- Session user `alice` with the given session copy of her score. -/
def alice (score : JSNum) : SessionUser := ⟨1, "alice".toList, score⟩

/-- Session user `bob` with the given session copy of his score. -/
def bob (score : JSNum) : SessionUser := ⟨2, "bob".toList, score⟩

/-- A submission of the flag `s3cret` for a challenge of the worked deployment. -/
def toySubmit (user : SessionUser) (question : String) : Request :=
  ⟨some "application/json".toList, question.toList, "s3cret".toList, user⟩

/-- Collections with `alice` (total 100) and `bob` (total 7) and the given solves. -/
def toyDB (scores : List ScoreDoc) : DB :=
  ⟨scores, [⟨1, "alice".toList, JSNum.fin 100⟩, ⟨2, "bob".toList, JSNum.fin 7⟩]⟩

/-! ## Basic facts about the handler -/

theorem submit_of_passesGuards (E : Env) (db : DB) (req : Request)
    (h : PassesGuards E req) :
    submit E db req =
      if E.stat (questionPathOf E req.question) = true then
        match E.readFile (flagPathOf E req.question) with
        | Except.error _ =>
          ⟨Outcome.internal, db,
            [FsOp.stat (questionPathOf E req.question), FsOp.read (flagPathOf E req.question)]⟩
        | Except.ok stored =>
          if normalizeHash E stored = normalizeHash E (E.sha3_512 req.flag) then
            ⟨(credit db req.user (keyOf E req)).1, (credit db req.user (keyOf E req)).2,
              [FsOp.stat (questionPathOf E req.question),
                FsOp.read (flagPathOf E req.question)]⟩
          else
            ⟨Outcome.invalidFlag, db,
              [FsOp.stat (questionPathOf E req.question),
                FsOp.read (flagPathOf E req.question)]⟩
      else ⟨Outcome.notFound, db, [FsOp.stat (questionPathOf E req.question)]⟩ := by
  obtain ⟨⟨ct, hct, hinc⟩, hq, hf, hpath⟩ := h
  simp only [submit, hct, hinc, hq, hf, hpath, keyOf, flagPathOf]
  cases E.stat (questionPathOf E req.question) <;> simp

theorem submit_of_readsDigest (E : Env) (db : DB) (req : Request) (stored : Str)
    (h : ReadsDigest E req stored) :
    submit E db req =
      if normalizeHash E stored = normalizeHash E (E.sha3_512 req.flag) then
        ⟨(credit db req.user (keyOf E req)).1, (credit db req.user (keyOf E req)).2,
          [FsOp.stat (questionPathOf E req.question), FsOp.read (flagPathOf E req.question)]⟩
      else
        ⟨Outcome.invalidFlag, db,
          [FsOp.stat (questionPathOf E req.question), FsOp.read (flagPathOf E req.question)]⟩ := by
  obtain ⟨hg, hstat, hread⟩ := h
  rw [submit_of_passesGuards E db req hg, if_pos hstat, hread]

theorem submit_of_correct (E : Env) (db : DB) (req : Request) (h : Correct E req) :
    submit E db req =
      ⟨(credit db req.user (keyOf E req)).1, (credit db req.user (keyOf E req)).2,
        [FsOp.stat (questionPathOf E req.question), FsOp.read (flagPathOf E req.question)]⟩ := by
  obtain ⟨stored, hr, heq⟩ := h
  rw [submit_of_readsDigest E db req stored hr, if_pos heq]

theorem credit_outcome (db : DB) (user : SessionUser) (q : Str) :
    (credit db user q).1 = Outcome.credited ∨ (credit db user q).1 = Outcome.alreadySubmitted := by
  unfold credit
  cases findByUserQuestion db.scores user.username q <;> simp

theorem findByUserQuestion_of_mem (scores : List ScoreDoc) (u q : Str)
    (h : ∃ d ∈ scores, d.username = u ∧ d.question = q) :
    ∃ d, findByUserQuestion scores u q = some d := by
  obtain ⟨d, hd, hu, hq⟩ := h
  cases hf : findByUserQuestion scores u q with
  | some d' => exact ⟨d', rfl⟩
  | none =>
    unfold findByUserQuestion at hf
    rw [List.find?_eq_none] at hf
    have := hf d hd
    simp [hu, hq] at this

theorem correct_of_accepted (E : Env) (db : DB) (req : Request)
    (h : Accepted (submit E db req)) : Correct E req := by
  unfold Accepted at h
  cases hct : req.contentType with
  | none => simp [submit, hct] at h
  | some ct =>
    by_cases hinc : includes ct "application/json".toList = true
    swap
    · simp only [submit, hct, hinc] at h; simp at h
    by_cases hq : req.question = []
    · simp only [submit, hct, hinc, hq] at h; simp at h
    by_cases hf : req.flag = []
    · simp only [submit, hct, hinc, hf] at h; simp at h
    by_cases hpath : includes (questionPathOf E req.question) E.questionsPath = true
    swap
    · simp only [submit, hct, hinc, hq, hf, hpath] at h; simp at h
    have hg : PassesGuards E req := ⟨⟨ct, hct, hinc⟩, hq, hf, hpath⟩
    rw [submit_of_passesGuards E db req hg] at h
    cases hstat : E.stat (questionPathOf E req.question) with
    | false => simp [hstat] at h
    | true =>
      cases hread : E.readFile (flagPathOf E req.question) with
      | error e => simp [hstat, hread] at h
      | ok stored =>
        refine ⟨stored, ⟨hg, hstat, hread⟩, ?_⟩
        by_contra hne
        simp [hstat, hread, hne] at h

theorem findByUserQuestion_upsert (u q : Str) (s : JSNum) (scores : List ScoreDoc) :
    findByUserQuestion (upsertScore u q s scores) u q = some ⟨u, q, s⟩ := by
  induction scores with
  | nil => simp [upsertScore, findByUserQuestion]
  | cons d ds ih =>
    unfold upsertScore
    split
    · rename_i hm
      obtain ⟨hu, hq⟩ := hm
      obtain ⟨du, dq, dsc⟩ := d
      simp only at hu hq
      subst hu hq
      simp [findByUserQuestion]
    · rename_i hm
      unfold findByUserQuestion at ih ⊢
      rw [List.find?_cons_of_neg]
      · exact ih
      · simpa using hm

theorem storedScore_update (id : Nat) (s : JSNum) (users : List UserDoc) (old : JSNum)
    (h : storedScore users id = some old) :
    storedScore (updateUserScore id s users) id = some s := by
  induction users with
  | nil => simp [storedScore] at h
  | cons d ds ih =>
    unfold updateUserScore
    split
    · rename_i hm
      simp [storedScore, hm]
    · rename_i hm
      unfold storedScore at ih h ⊢
      rw [List.find?_cons_of_neg _ (by simpa using hm)] at h ⊢
      exact ih h

theorem upsertScore_of_none (u q : Str) (s : JSNum) (scores : List ScoreDoc)
    (h : findByUserQuestion scores u q = none) :
    upsertScore u q s scores = scores ++ [⟨u, q, s⟩] := by
  induction scores with
  | nil => rfl
  | cons d ds ih =>
    unfold findByUserQuestion at h ih
    rw [List.find?_cons] at h
    split at h
    · simp at h
    · rename_i hd
      have hd' : ¬ (d.username = u ∧ d.question = q) := by simpa using hd
      simp only [upsertScore, hd', if_false, List.cons_append, ih h]

theorem credit_of_none (db : DB) (user : SessionUser) (q : Str)
    (h : findByUserQuestion db.scores user.username q = none) :
    credit db user q =
      (Outcome.credited,
        ⟨db.scores ++ [⟨user.username, q, award db.scores q⟩],
          updateUserScore user.id (JSNum.add user.score (award db.scores q)) db.users⟩) := by
  simp [credit, h, upsertScore_of_none _ _ _ _ h]

theorem credit_of_some (db : DB) (user : SessionUser) (q : Str) (d : ScoreDoc)
    (h : findByUserQuestion db.scores user.username q = some d) :
    credit db user q = (Outcome.alreadySubmitted, db) := by
  simp [credit, h]

theorem submit_credited (E : Env) (db : DB) (req : Request)
    (h : (submit E db req).outcome = Outcome.credited) :
    findByUserQuestion db.scores req.user.username (keyOf E req) = none ∧
    (submit E db req).db =
      ⟨db.scores ++ [⟨req.user.username, keyOf E req, award db.scores (keyOf E req)⟩],
        updateUserScore req.user.id
          (JSNum.add req.user.score (award db.scores (keyOf E req))) db.users⟩ := by
  have hc := correct_of_accepted E db req (Or.inl h)
  rw [submit_of_correct E db req hc] at h ⊢
  cases hfind : findByUserQuestion db.scores req.user.username (keyOf E req) with
  | some d => rw [credit_of_some db _ _ d hfind] at h; simp at h
  | none => rw [credit_of_none db _ _ hfind]; simp

/-! ## Facts about numbers -/

theorem bitLengthAux_le (f : Nat) : ∀ (n k : Nat), n < 2 ^ k → bitLengthAux f n ≤ k := by
  induction f with
  | zero => intro n k _; simp [bitLengthAux]
  | succ f ih =>
    intro n k h
    unfold bitLengthAux
    split
    · exact Nat.zero_le k
    · rename_i hn
      cases k with
      | zero => simp at h; exact absurd h hn
      | succ k =>
        have : n / 2 < 2 ^ k := by
          rw [Nat.div_lt_iff_lt_mul (by norm_num)]
          rw [pow_succ] at h
          exact h
        have := ih (n / 2) k this
        omega

theorem bitLength_le (n k : Nat) (h : n < 2 ^ k) : bitLength n ≤ k :=
  bitLengthAux_le n n k h

theorem roundShift_ge (n s : Nat) : n / 2 ^ s ≤ roundShift n s := by
  unfold roundShift
  simp only
  split_ifs <;> omega

theorem roundShift_mul_le (n s : Nat) : roundShift n s * 2 ^ s ≤ n + 2 ^ s / 2 := by
  have hdm : n / 2 ^ s * 2 ^ s + n % 2 ^ s = n := Nat.div_add_mod' n (2 ^ s)
  have hsucc : (n / 2 ^ s + 1) * 2 ^ s = n / 2 ^ s * 2 ^ s + 2 ^ s := by ring
  unfold roundShift
  simp only
  split_ifs with h0 h1 h2 h3
  · omega
  · omega
  · rw [hsucc]; omega
  · omega
  · rw [hsucc]
    have heven : 2 ^ s = 2 * (2 ^ s / 2) := by
      obtain ⟨t, rfl⟩ := Nat.exists_eq_succ_of_ne_zero h0
      rw [pow_succ]; omega
    omega

theorem roundNat_small (n : Nat) (h : n < 2 ^ 53) : roundNat n = n := by
  have hb := bitLength_le n 53 h
  unfold roundNat
  have hs : bitLength n - 53 = 0 := by omega
  simp [hs, roundShift]

theorem roundNat_bounds (n k s₀ : Nat) (hn : n < 2 ^ (53 + s₀)) (hs : s₀ ≤ 52)
    (hk : k * 2 ^ 52 ≤ n) :
    k * 2 ^ 52 ≤ roundNat n ∧ roundNat n ≤ n + 2 ^ s₀ / 2 := by
  have hb := bitLength_le n _ hn
  unfold roundNat
  simp only
  generalize hs' : bitLength n - 53 = s
  have hss : s ≤ s₀ := by omega
  constructor
  · have hdiv : 2 ^ 52 = 2 ^ (52 - s) * 2 ^ s := by
      rw [← pow_add]; congr 1; omega
    have h1 : k * 2 ^ (52 - s) ≤ n / 2 ^ s := by
      rw [Nat.le_div_iff_mul_le (by positivity)]
      calc k * 2 ^ (52 - s) * 2 ^ s = k * 2 ^ 52 := by rw [hdiv]; ring
        _ ≤ n := hk
    calc k * 2 ^ 52 = k * 2 ^ (52 - s) * 2 ^ s := by rw [hdiv]; ring
      _ ≤ n / 2 ^ s * 2 ^ s := Nat.mul_le_mul_right _ h1
      _ ≤ roundShift n s * 2 ^ s := Nat.mul_le_mul_right _ (roundShift_ge n s)
  · have := roundShift_mul_le n s
    have hp : 2 ^ s ≤ 2 ^ s₀ := Nat.pow_le_pow_right (by norm_num) hss
    have : 2 ^ s / 2 ≤ 2 ^ s₀ / 2 := Nat.div_le_div_right hp
    omega

theorem bonus_product (b : Nat) (h : b ≤ 511772684928465) :
    roundNat (b * onePointOne) / 2 ^ 52 = b * 11 / 10 := by
  have hN : b * onePointOne < 2 ^ (53 + 48) := by
    unfold onePointOne; norm_num; omega
  have hk : (b * 11 / 10) * 2 ^ 52 ≤ b * onePointOne := by
    unfold onePointOne; norm_num; omega
  obtain ⟨h1, h2⟩ := roundNat_bounds (b * onePointOne) (b * 11 / 10) 48 hN (by norm_num) hk
  apply Nat.div_eq_of_lt_le
  · exact h1
  · unfold onePointOne at h2 ⊢
    norm_num at h2 ⊢
    omega

theorem overflowBound_gt : 10 ^ 21 < overflowBound := by
  unfold overflowBound
  rw [Nat.shiftLeft_eq]
  norm_num

theorem ofNat_of_le (n : Nat) (h : n ≤ 2 ^ 53) : JSNum.ofNat n = JSNum.fin n := by
  have hr : roundNat n = n := by
    rcases Nat.lt_or_ge n (2 ^ 53) with hlt | hge
    · exact roundNat_small n hlt
    · have : n = 2 ^ 53 := le_antisymm h hge
      subst this
      decide
  have hb := overflowBound_gt
  unfold JSNum.ofNat
  simp only [hr]
  rw [if_pos]
  norm_num at h
  omega

theorem bonusScore_of_product_le (b : Nat) (h : b ≤ 511772684928465) :
    bonusScore (JSNum.fin b) = JSNum.fin (b * 11 / 10) := by
  have hN : b * onePointOne < 2 ^ (53 + 48) := by
    unfold onePointOne; norm_num; omega
  have hk : (b * 11 / 10) * 2 ^ 52 ≤ b * onePointOne := by
    unfold onePointOne; norm_num; omega
  obtain ⟨_, h2⟩ := roundNat_bounds (b * onePointOne) (b * 11 / 10) 48 hN (by norm_num) hk
  have hb := overflowBound_gt
  have hsmall : roundNat (b * onePointOne) < 10 ^ 21 * 2 ^ 52 := by
    unfold onePointOne at h2 ⊢
    norm_num at h2 ⊢
    omega
  have hfin : roundNat (b * onePointOne) < overflowBound * 2 ^ 52 :=
    lt_trans hsmall (Nat.mul_lt_mul_of_pos_right hb (by positivity))
  unfold bonusScore timesOnePointOne
  simp only [hfin, if_true, parseIntNumber, hsmall, bonus_product b h]

set_option maxRecDepth 100000 in
theorem bonusScore_exact (b : Nat) (h : b < 511772684928469) :
    bonusScore (JSNum.fin b) = JSNum.fin (b * 11 / 10) := by
  rcases Nat.lt_or_ge b 511772684928466 with hlt | hge
  · exact bonusScore_of_product_le b (by omega)
  · have : b = 511772684928466 ∨ b = 511772684928467 ∨ b = 511772684928468 := by omega
    rcases this with rfl | rfl | rfl <;> decide

/-! ## C1: a repeated correct submission changes nothing -/

/-- C1. When a `Score` document for the user and the challenge key already exists, a correct
submission by that user for that challenge is answered 'Already submitted.' and leaves
both collections exactly as they were. -/
theorem C1_repeat_is_idempotent (E : Env) (db : DB) (req : Request)
    (hcorrect : Correct E req)
    (hsolved : ∃ d ∈ db.scores, d.username = req.user.username ∧ d.question = keyOf E req) :
    (submit E db req).outcome = Outcome.alreadySubmitted ∧ (submit E db req).db = db := by
  obtain ⟨d, hd⟩ := findByUserQuestion_of_mem db.scores _ _ hsolved
  rw [submit_of_correct E db req hcorrect]
  simp [credit, hd]

theorem toy_passesGuards (files : List (Str × Str)) (u : SessionUser) :
    PassesGuards (toyEnvWith files) (toySubmit u "crypto-500-warmup") := by
  refine ⟨⟨_, rfl, by decide⟩, ?_, ?_, ?_⟩
  · show "crypto-500-warmup".toList ≠ []
    decide
  · show "s3cret".toList ≠ []
    decide
  · show includes (pathResolve "/srv".toList "/app/questions".toList
      "crypto-500-warmup".toList) "/app/questions".toList = true
    decide

theorem toy_readsDigest (u : SessionUser) :
    ReadsDigest toyEnv (toySubmit u "crypto-500-warmup") "TERC 3S\n".toList := by
  refine ⟨toy_passesGuards toyFiles u, ?_, ?_⟩
  · show toyEnv.stat (questionPathOf toyEnv "crypto-500-warmup".toList) = true
    decide
  · show toyEnv.readFile (flagPathOf toyEnv "crypto-500-warmup".toList) = _
    decide

theorem toy_correct (u : SessionUser) : Correct toyEnv (toySubmit u "crypto-500-warmup") := by
  refine ⟨_, toy_readsDigest u, ?_⟩
  show normalizeHash toyEnv "TERC 3S\n".toList = normalizeHash toyEnv (toyDigest "s3cret".toList)
  decide

theorem toy_keyOf (u : SessionUser) :
    keyOf toyEnv (toySubmit u "crypto-500-warmup") = "crypto-500-warmup".toList := by
  show questionNameOf toyEnv (questionPathOf toyEnv "crypto-500-warmup".toList) = _
  decide

/-- C1 at the worked deployment: `alice` has a solve of `crypto-500-warmup` on record and
submits the correct flag again. -/
theorem C1_repeat_is_idempotent_witness :
    Correct toyEnv (toySubmit (alice (JSNum.fin 650)) "crypto-500-warmup") ∧
    (submit toyEnv (toyDB [⟨"alice".toList, "crypto-500-warmup".toList, JSNum.fin 550⟩])
      (toySubmit (alice (JSNum.fin 650)) "crypto-500-warmup")).outcome
        = Outcome.alreadySubmitted ∧
    (submit toyEnv (toyDB [⟨"alice".toList, "crypto-500-warmup".toList, JSNum.fin 550⟩])
      (toySubmit (alice (JSNum.fin 650)) "crypto-500-warmup")).db
        = toyDB [⟨"alice".toList, "crypto-500-warmup".toList, JSNum.fin 550⟩] :=
  ⟨toy_correct _,
    C1_repeat_is_idempotent toyEnv _ _ (toy_correct _)
      ⟨_, List.mem_singleton.mpr rfl, rfl, (toy_keyOf _).symm⟩⟩

/-! ## C9: what a missing digest file leads to -/

/-- C9, as stated, fails: `misc-50-unfinished` passes the containment check and its
directory exists, its `flag.sha3-512` is missing, and the handler answers with the
`Internal` error, not with `NotFound`. -/
theorem C9_missing_digest_is_internal :
    (toyEnv.stat (questionPathOf toyEnv "misc-50-unfinished".toList) = true ∧
      toyEnv.readFile (flagPathOf toyEnv "misc-50-unfinished".toList)
        = Except.error ReadFault.missing) ∧
    (submit toyEnv (toyDB []) (toySubmit (alice (JSNum.fin 100)) "misc-50-unfinished")).outcome
      = Outcome.internal ∧
    (submit toyEnv (toyDB []) (toySubmit (alice (JSNum.fin 100)) "misc-50-unfinished")).outcome
      ≠ Outcome.notFound := by
  decide

/-- C9, amended. For a request that passes the guards: the handler fails with `NotFound`
exactly when the stat of the challenge path fails, and, the path existing, it fails with
`Internal` exactly when reading `flag.sha3-512` fails, whatever the fault, a missing file
included. -/
theorem C9_read_fault_is_internal (E : Env) (db : DB) (req : Request)
    (hguards : PassesGuards E req) :
    ((submit E db req).outcome = Outcome.notFound ↔
      E.stat (questionPathOf E req.question) = false) ∧
    (E.stat (questionPathOf E req.question) = true →
      ((submit E db req).outcome = Outcome.internal ↔
        ∃ fault, E.readFile (flagPathOf E req.question) = Except.error fault)) := by
  rw [submit_of_passesGuards E db req hguards]
  cases hstat : E.stat (questionPathOf E req.question) with
  | false => simp
  | true =>
    cases hread : E.readFile (flagPathOf E req.question) with
    | error e => simp
    | ok stored =>
      simp only [if_true]
      split
      · rcases credit_outcome db req.user (keyOf E req) with h | h <;> simp [h]
      · simp

/-- C9, amended, at the worked deployment: the directory of `misc-50-unfinished` exists and
its digest file is missing. -/
theorem C9_read_fault_is_internal_witness :
    PassesGuards toyEnv (toySubmit (alice (JSNum.fin 100)) "misc-50-unfinished") ∧
    (((submit toyEnv (toyDB []) (toySubmit (alice (JSNum.fin 100)) "misc-50-unfinished")).outcome
        = Outcome.notFound ↔
      toyEnv.stat (questionPathOf toyEnv
        (toySubmit (alice (JSNum.fin 100)) "misc-50-unfinished").question) = false) ∧
    (toyEnv.stat (questionPathOf toyEnv
        (toySubmit (alice (JSNum.fin 100)) "misc-50-unfinished").question) = true →
      ((submit toyEnv (toyDB []) (toySubmit (alice (JSNum.fin 100)) "misc-50-unfinished")).outcome
        = Outcome.internal ↔
        ∃ fault, toyEnv.readFile (flagPathOf toyEnv
          (toySubmit (alice (JSNum.fin 100)) "misc-50-unfinished").question)
            = Except.error fault))) :=
  ⟨⟨⟨_, rfl, by decide⟩, by decide, by decide, by decide⟩,
    C9_read_fault_is_internal toyEnv (toyDB [])
      (toySubmit (alice (JSNum.fin 100)) "misc-50-unfinished")
      ⟨⟨_, rfl, by decide⟩, by decide, by decide, by decide⟩⟩

/-! ## C7: when a flag is accepted -/

theorem removeWhiteSpace_of_clean (s : Str) (h : ∀ c ∈ s, isWhiteSpace c = false) :
    removeWhiteSpace s = s := by
  unfold removeWhiteSpace
  rw [List.filter_eq_self]
  intro c hc
  simp [h c hc]

theorem removeWhiteSpace_insert (a b : Str) (c : Char) (h : isWhiteSpace c = true) :
    removeWhiteSpace (a ++ c :: b) = removeWhiteSpace (a ++ b) := by
  simp [removeWhiteSpace, List.filter_append, List.filter_cons, h]

theorem normalizeHash_of_variant (E : Env) (s t : Str)
    (h : CaseSpaceVariant E.toLowerCase s t) : normalizeHash E s = normalizeHash E t := by
  induction h with
  | letters s t hs ht hl =>
    simp [normalizeHash, removeWhiteSpace_of_clean s hs, removeWhiteSpace_of_clean t ht, hl]
  | spaceLeft a b t c hc _ ih =>
    simpa [normalizeHash, removeWhiteSpace_insert a b c hc] using ih
  | spaceRight s a b c hc _ ih =>
    simpa [normalizeHash, removeWhiteSpace_insert a b c hc] using ih

theorem accepted_iff (E : Env) (db : DB) (req : Request) (stored : Str)
    (h : ReadsDigest E req stored) :
    Accepted (submit E db req) ↔
      normalizeHash E stored = normalizeHash E (E.sha3_512 req.flag) := by
  rw [submit_of_readsDigest E db req stored h]
  unfold Accepted
  split
  · rename_i heq
    simp only [heq, iff_true]
    exact credit_outcome db req.user (keyOf E req)
  · rename_i hne
    simp [hne]

/-- C7. For a request that gets as far as reading the stored digest `s`, the handler takes
the correct-flag branch if and only if `s` and the digest of the submitted flag are equal
after removing all white space and lower-casing, and it fails with `InvalidFlag`
otherwise; hence with a stored content `s'` that differs from `s` only in letter case and
white space the same flag is accepted exactly when it is accepted with `s`. -/
theorem C7_verification (E : Env) (db : DB) (req : Request) (s : Str)
    (h : ReadsDigest E req s) :
    (Accepted (submit E db req) ↔
      E.toLowerCase (removeWhiteSpace s)
        = E.toLowerCase (removeWhiteSpace (E.sha3_512 req.flag))) ∧
    ((submit E db req).outcome = Outcome.invalidFlag ↔
      E.toLowerCase (removeWhiteSpace s)
        ≠ E.toLowerCase (removeWhiteSpace (E.sha3_512 req.flag))) ∧
    (∀ (E' : Env) (s' : Str), ReadsDigest E' req s' → E'.sha3_512 = E.sha3_512 →
      E'.toLowerCase = E.toLowerCase → CaseSpaceVariant E.toLowerCase s s' →
      (Accepted (submit E db req) ↔ Accepted (submit E' db req))) := by
  refine ⟨accepted_iff E db req s h, ?_, ?_⟩
  · rw [submit_of_readsDigest E db req s h]
    unfold normalizeHash
    split
    · rename_i heq
      rcases credit_outcome db req.user (keyOf E req) with hc | hc <;> simp [hc, heq]
    · rename_i hne
      simp [hne]
  · intro E' s' h' hd hl hv
    rw [accepted_iff E db req s h, accepted_iff E' db req s' h']
    have hn := normalizeHash_of_variant E s s' hv
    unfold normalizeHash at hn ⊢
    rw [hl, hd, hn]

/-- C7 at the worked deployment: the digest file of `crypto-500-warmup` holds
`TERC 3S` and a line feed; the variant holds `terc3s`. -/
theorem C7_verification_witness :
    ReadsDigest toyEnv (toySubmit (alice (JSNum.fin 100)) "crypto-500-warmup")
      "TERC 3S\n".toList ∧
    CaseSpaceVariant toyEnv.toLowerCase "TERC 3S\n".toList "terc3s".toList ∧
    Accepted (submit toyEnv (toyDB []) (toySubmit (alice (JSNum.fin 100)) "crypto-500-warmup")) ∧
    Accepted (submit
      (toyEnvWith [("/app/questions/crypto-500-warmup/flag.sha3-512".toList, "terc3s".toList)])
      (toyDB []) (toySubmit (alice (JSNum.fin 100)) "crypto-500-warmup")) := by
  have hr := toy_readsDigest (alice (JSNum.fin 100))
  have hv : CaseSpaceVariant toyEnv.toLowerCase "TERC 3S\n".toList "terc3s".toList :=
    CaseSpaceVariant.spaceLeft "TERC".toList "3S\n".toList _ ' ' (by decide)
      (CaseSpaceVariant.spaceLeft "TERC3S".toList [] _ '\n' (by decide)
        (CaseSpaceVariant.letters _ _ (by decide) (by decide) (by decide)))
  have hr' : ReadsDigest
      (toyEnvWith [("/app/questions/crypto-500-warmup/flag.sha3-512".toList, "terc3s".toList)])
      (toySubmit (alice (JSNum.fin 100)) "crypto-500-warmup") "terc3s".toList :=
    ⟨toy_passesGuards _ _, by decide, by decide⟩
  have hC := C7_verification toyEnv (toyDB [])
    (toySubmit (alice (JSNum.fin 100)) "crypto-500-warmup") _ hr
  have hacc : Accepted (submit toyEnv (toyDB [])
      (toySubmit (alice (JSNum.fin 100)) "crypto-500-warmup")) := hC.1.mpr (by decide)
  exact ⟨hr, hv, hacc, (hC.2.2 _ _ hr' rfl rfl hv).mp hacc⟩

/-! ## C4: what the user is credited with -/

/-- C4, as stated, fails: `alice` has a stored total of 100 while the session copy of her
score is 0; her correct first submission for `crypto-500-warmup` creates a `Score` document
with score 550 and leaves her with a stored total of 550, not 100 + 550. -/
theorem C4_stale_session_overwrites :
    (submit toyEnv (toyDB []) (toySubmit (alice (JSNum.fin 0)) "crypto-500-warmup")).outcome
      = Outcome.credited ∧
    storedScore (toyDB []).users 1 = some (JSNum.fin 100) ∧
    recordedScore
      (submit toyEnv (toyDB []) (toySubmit (alice (JSNum.fin 0)) "crypto-500-warmup")).db.scores
      "alice".toList "crypto-500-warmup".toList = some (JSNum.fin 550) ∧
    storedScore
      (submit toyEnv (toyDB []) (toySubmit (alice (JSNum.fin 0)) "crypto-500-warmup")).db.users 1
      = some (JSNum.fin 550) ∧
    JSNum.add (JSNum.fin 100) (JSNum.fin 550) = JSNum.fin 650 := by
  decide

/-- C4, amended. For every request that ends in the credited branch and whose session copy
`req.user.score` equals the stored total of the user: no `Score` document for the user and
the key existed, the one created carries the awarded score, and the stored total afterwards
is the JavaScript sum of the stored total before and that score, which is their exact sum
when it does not exceed `2 ^ 53`. -/
theorem C4_credit_equals_award (E : Env) (db : DB) (req : Request)
    (hcredited : (submit E db req).outcome = Outcome.credited)
    (hfresh : storedScore db.users req.user.id = some req.user.score) :
    recordedScore db.scores req.user.username (keyOf E req) = none ∧
    recordedScore (submit E db req).db.scores req.user.username (keyOf E req)
      = some (award db.scores (keyOf E req)) ∧
    storedScore (submit E db req).db.users req.user.id
      = some (JSNum.add req.user.score (award db.scores (keyOf E req))) ∧
    (∀ t a : Nat, req.user.score = JSNum.fin t → award db.scores (keyOf E req) = JSNum.fin a →
      t + a ≤ 2 ^ 53 →
      storedScore (submit E db req).db.users req.user.id = some (JSNum.fin (t + a))) := by
  obtain ⟨hnone, hdb⟩ := submit_credited E db req hcredited
  have hstored := storedScore_update req.user.id
    (JSNum.add req.user.score (award db.scores (keyOf E req))) db.users _ hfresh
  have hrec := findByUserQuestion_upsert req.user.username (keyOf E req)
    (award db.scores (keyOf E req)) db.scores
  rw [upsertScore_of_none _ _ _ _ hnone] at hrec
  rw [hdb]
  refine ⟨by simp [recordedScore, hnone], by simp [recordedScore, hrec], hstored, ?_⟩
  intro t a ht ha hsum
  rw [hstored, ht, ha]
  simp only [JSNum.add, ofNat_of_le (t + a) hsum]

/-- C4, amended, at the worked deployment: the session copy of the score of `alice` is her
stored total, 100. -/
theorem C4_credit_equals_award_witness :
    (submit toyEnv (toyDB []) (toySubmit (alice (JSNum.fin 100)) "crypto-500-warmup")).outcome
      = Outcome.credited ∧
    storedScore (toyDB []).users 1 = some (JSNum.fin 100) ∧
    storedScore
      (submit toyEnv (toyDB []) (toySubmit (alice (JSNum.fin 100)) "crypto-500-warmup")).db.users
      1 = some (JSNum.fin (100 + 550)) :=
  ⟨by decide, by decide,
    (C4_credit_equals_award toyEnv (toyDB [])
      (toySubmit (alice (JSNum.fin 100)) "crypto-500-warmup") (by decide) (by decide)).2.2.2
      100 550 rfl (by decide) (by norm_num)⟩

/-! ## C5: the amount awarded -/

set_option maxRecDepth 100000 in
/-- C5, as stated, fails: for the base score 511772684928469 and no earlier solve the
handler awards 562949953421316, one more than the exact `floor(b * 11 / 10)`, because the
product with the double `1.1` is rounded up to the next integer; and for the base score
`10 ^ 21` it awards 1, because the product is printed in exponent form before it is parsed. -/
theorem C5_award_not_exact :
    baseScore "pwn-511772684928469-x".toList = JSNum.fin 511772684928469 ∧
    award [] "pwn-511772684928469-x".toList = JSNum.fin 562949953421316 ∧
    511772684928469 * 11 / 10 = 562949953421315 ∧
    baseScore "pwn-1000000000000000000000-x".toList = JSNum.fin (10 ^ 21) ∧
    award [] "pwn-1000000000000000000000-x".toList = JSNum.fin 1 := by
  decide

/-- C5, amended. For every challenge name whose base score is a natural `b`: when a `Score`
document for that name exists the handler awards exactly `b`; when none exists and
`b < 511772684928469` it awards `floor(b * 11 / 10)` in exact arithmetic. -/
theorem C5_award_amount (scores : List ScoreDoc) (name : Str) (b : Nat)
    (hbase : baseScore name = JSNum.fin b) :
    ((findByQuestion scores name).isSome = true → award scores name = JSNum.fin b) ∧
    ((findByQuestion scores name).isNone = true → b < 511772684928469 →
      award scores name = JSNum.fin (b * 11 / 10)) := by
  constructor
  · intro h
    have : (findByQuestion scores name).isNone = false := by
      cases hf : findByQuestion scores name <;> simp [hf] at h ⊢
    simp [award, this, hbase]
  · intro h hb
    simp [award, h, hbase, bonusScore_exact b hb]

/-- C5, amended, on the example of the specification: the first solver of
`crypto-500-warmup` is awarded 550 and a later solver 500. -/
theorem C5_award_amount_witness :
    baseScore "crypto-500-warmup".toList = JSNum.fin 500 ∧
    award [] "crypto-500-warmup".toList = JSNum.fin (500 * 11 / 10) ∧
    award [⟨"alice".toList, "crypto-500-warmup".toList, JSNum.fin 550⟩]
      "crypto-500-warmup".toList = JSNum.fin 500 :=
  ⟨by decide,
    (C5_award_amount [] "crypto-500-warmup".toList 500 (by decide)).2 (by decide) (by norm_num),
    (C5_award_amount [⟨"alice".toList, "crypto-500-warmup".toList, JSNum.fin 550⟩]
      "crypto-500-warmup".toList 500 (by decide)).1 (by decide)⟩



theorem digit_not_whiteSpace (c : Char) (h : isDigit c = true) : isWhiteSpace c = false := by
  unfold isDigit at h
  unfold isWhiteSpace
  simp only [Bool.and_eq_true, decide_eq_true_eq] at h
  simp only [Bool.or_eq_false_iff, Bool.and_eq_false_iff, beq_eq_false_iff_ne,
    decide_eq_false_iff_not]
  omega

theorem digit_ne_plus (c : Char) (h : isDigit c = true) : c ≠ '+' := by
  rintro rfl
  exact absurd h (by decide)

theorem takeWhile_of_head {p : Char → Bool} (l : Str)
    (h : ∀ c, l.head? = some c → p c = false) : l.takeWhile p = [] := by
  cases l with
  | nil => rfl
  | cons a l => simp [List.takeWhile, h a rfl]

theorem dropWhile_of_head {p : Char → Bool} (l : Str)
    (h : ∀ c, l.head? = some c → p c = false) : l.dropWhile p = l := by
  cases l with
  | nil => rfl
  | cons a l => simp [List.dropWhile, h a rfl]

theorem parseIntSegment_decompose (ws sign ds rest : Str)
    (hws : ∀ c ∈ ws, isWhiteSpace c = true) (hsign : sign = [] ∨ sign = ['+'])
    (hds : ∀ c ∈ ds, isDigit c = true)
    (hrest : ∀ c, rest.head? = some c → isDigit c = false)
    (hmax : ds = [] → sign = [] →
      ∀ c, rest.head? = some c → isWhiteSpace c = false ∧ c ≠ '+') :
    parseIntSegment (some (ws ++ sign ++ ds ++ rest)) =
      if ds = [] then JSNum.nan else JSNum.ofNat (digitsValue ds) := by
  have htake : (ds ++ rest).takeWhile isDigit = ds := by
    rw [List.takeWhile_append_of_pos hds, takeWhile_of_head rest hrest, List.append_nil]
  unfold parseIntSegment
  simp only
  rw [List.append_assoc, List.append_assoc, List.dropWhile_append_of_pos hws]
  rcases hsign with rfl | rfl
  · have hhead : ∀ c, (ds ++ rest).head? = some c → isWhiteSpace c = false ∧ c ≠ '+' := by
      intro c hc
      cases ds with
      | nil => exact hmax rfl rfl c hc
      | cons d ds' =>
        simp only [List.cons_append, List.head?_cons, Option.some.injEq] at hc
        subst hc
        exact ⟨digit_not_whiteSpace _ (hds _ (List.mem_cons_self _ _)),
          digit_ne_plus _ (hds _ (List.mem_cons_self _ _))⟩
    rw [List.nil_append, dropWhile_of_head _ (fun c hc => (hhead c hc).1)]
    have hplus : (ds ++ rest).head? ≠ some '+' := fun hc => (hhead _ hc).2 rfl
    rw [if_neg hplus, htake]
  · have h1 : (['+'] ++ (ds ++ rest)).dropWhile isWhiteSpace = '+' :: (ds ++ rest) := by
      apply dropWhile_of_head
      intro c hc
      simp only [List.singleton_append, List.head?_cons, Option.some.injEq] at hc
      subst hc
      decide
    rw [h1]
    simp only [List.head?_cons, if_true, List.tail_cons, htake]

theorem orZero_ofNat (n : Nat) : orZero (JSNum.ofNat n) = JSNum.ofNat n := by
  unfold JSNum.ofNat
  simp only
  split <;> rfl

theorem segment_decomposes (seg : Str) :
    ∃ ws sign ds rest : Str, seg = ws ++ sign ++ ds ++ rest ∧
      (∀ c ∈ ws, isWhiteSpace c = true) ∧ (sign = [] ∨ sign = ['+']) ∧
      (∀ c ∈ ds, isDigit c = true) ∧ (∀ c, rest.head? = some c → isDigit c = false) ∧
      (ds = [] → sign = [] → ∀ c, rest.head? = some c → isWhiteSpace c = false ∧ c ≠ '+') := by
  have hdrop : ∀ (p : Char → Bool) (l : Str) (c : Char),
      (l.dropWhile p).head? = some c → p c = false := by
    intro p l c hc
    have := List.head?_dropWhile_not p l
    rw [hc] at this
    simpa using this
  have hsplit : ∀ (p : Char → Bool) (l : Str), l = l.takeWhile p ++ l.dropWhile p :=
    fun p l => (List.takeWhile_append_dropWhile p l).symm
  by_cases hplus : (seg.dropWhile isWhiteSpace).head? = some '+'
  · refine ⟨seg.takeWhile isWhiteSpace, ['+'],
      (seg.dropWhile isWhiteSpace).tail.takeWhile isDigit,
      (seg.dropWhile isWhiteSpace).tail.dropWhile isDigit, ?_,
      fun c hc => (List.mem_takeWhile_imp hc), Or.inr rfl,
      fun c hc => (List.mem_takeWhile_imp hc), hdrop _ _, ?_⟩
    · have ht : seg.dropWhile isWhiteSpace = '+' :: (seg.dropWhile isWhiteSpace).tail := by
        cases hd : seg.dropWhile isWhiteSpace with
        | nil => simp [hd] at hplus
        | cons a l =>
          simp only [hd, List.head?_cons, Option.some.injEq] at hplus
          simp [hplus]
      rw [List.append_assoc, List.append_assoc, ← hsplit isDigit, List.singleton_append,
        ← ht, ← hsplit isWhiteSpace]
    · intro _ h
      simp at h
  · refine ⟨seg.takeWhile isWhiteSpace, [],
      (seg.dropWhile isWhiteSpace).takeWhile isDigit,
      (seg.dropWhile isWhiteSpace).dropWhile isDigit, ?_,
      fun c hc => (List.mem_takeWhile_imp hc), Or.inl rfl,
      fun c hc => (List.mem_takeWhile_imp hc), hdrop _ _, ?_⟩
    · rw [List.append_nil, List.append_assoc, ← hsplit isDigit, ← hsplit isWhiteSpace]
    · intro hds _ c hc
      have hrest : (seg.dropWhile isWhiteSpace).dropWhile isDigit
          = seg.dropWhile isWhiteSpace := by
        conv_rhs => rw [hsplit isDigit (seg.dropWhile isWhiteSpace), hds, List.nil_append]
      rw [hrest] at hc
      refine ⟨hdrop _ _ _ hc, ?_⟩
      rintro rfl
      exact hplus hc

/-- C8, as stated, fails: the second segment of `web- 7-x` starts with a space, not with a
decimal integer, and the base score is 7 instead of 0; the second segment of
`web-9007199254740993-x` is the decimal integer 9007199254740993 and the base score is
9007199254740992, the nearest double. -/
theorem C8_not_leading_digits :
    baseScore "web- 7-x".toList = JSNum.fin 7 ∧
    specBaseScore "web- 7-x".toList = 0 ∧
    baseScore "web-9007199254740993-x".toList = JSNum.fin 9007199254740992 ∧
    specBaseScore "web-9007199254740993-x".toList = 9007199254740993 := by
  decide

/-- C8, amended. The base score is a function of the challenge name alone and is always a
number: it is 0 when the name has no second `-`-separated segment; every second segment
splits into leading white space, an optional `+`, a longest run of decimal digits and a
rest; the base score is 0 when the run of digits is empty and otherwise the Number value of
the decimal integer the run spells, which is that integer itself when it is at most
`2 ^ 53`. -/
theorem C8_base_score (name : Str) :
    ((splitOn '-' name).get? 1 = none → baseScore name = JSNum.fin 0) ∧
    (∀ seg, (splitOn '-' name).get? 1 = some seg →
      ∃ ws sign ds rest : Str, seg = ws ++ sign ++ ds ++ rest ∧
        (∀ c ∈ ws, isWhiteSpace c = true) ∧ (sign = [] ∨ sign = ['+']) ∧
        (∀ c ∈ ds, isDigit c = true) ∧ (∀ c, rest.head? = some c → isDigit c = false) ∧
        (ds = [] → sign = [] →
          ∀ c, rest.head? = some c → isWhiteSpace c = false ∧ c ≠ '+')) ∧
    (∀ ws sign ds rest : Str, (splitOn '-' name).get? 1 = some (ws ++ sign ++ ds ++ rest) →
      (∀ c ∈ ws, isWhiteSpace c = true) → (sign = [] ∨ sign = ['+']) →
      (∀ c ∈ ds, isDigit c = true) → (∀ c, rest.head? = some c → isDigit c = false) →
      (ds = [] → sign = [] →
        ∀ c, rest.head? = some c → isWhiteSpace c = false ∧ c ≠ '+') →
      (ds = [] → baseScore name = JSNum.fin 0) ∧
      (ds ≠ [] → baseScore name = JSNum.ofNat (digitsValue ds)) ∧
      (ds ≠ [] → digitsValue ds ≤ 2 ^ 53 → baseScore name = JSNum.fin (digitsValue ds))) := by
  refine ⟨?_, fun seg _ => segment_decomposes seg, ?_⟩
  · intro h
    unfold baseScore
    rw [h]
    rfl
  · intro ws sign ds rest hseg hws hsign hds hrest hmax
    have hb : baseScore name
        = orZero (if ds = [] then JSNum.nan else JSNum.ofNat (digitsValue ds)) := by
      unfold baseScore
      rw [hseg, parseIntSegment_decompose ws sign ds rest hws hsign hds hrest hmax]
    refine ⟨?_, ?_, ?_⟩
    · intro h
      rw [hb, if_pos h]
      rfl
    · intro h
      rw [hb, if_neg h, orZero_ofNat]
    · intro h hle
      rw [hb, if_neg h, orZero_ofNat, ofNat_of_le _ hle]

/-- C8, amended, on the example of the specification: `crypto-500-warmup` has the base
score 500. -/
theorem C8_base_score_witness :
    (splitOn '-' "crypto-500-warmup".toList).get? 1 = some ([] ++ [] ++ "500".toList ++ []) ∧
    baseScore "crypto-500-warmup".toList = JSNum.fin 500 :=
  ⟨by decide,
    ((C8_base_score "crypto-500-warmup".toList).2.2 [] [] "500".toList [] (by decide)
      (by decide) (by decide) (by decide) (by decide) (by decide)).2.2
      (by decide) (by decide)⟩


/-! ## C3: the containment check -/

theorem submit_rejects_unless_included (E : Env) (db : DB) (req : Request) (ct : Str)
    (hct : req.contentType = some ct)
    (hinc : includes ct "application/json".toList = true)
    (hq : req.question ≠ []) (hf : req.flag ≠ [])
    (hpath : includes (questionPathOf E req.question) E.questionsPath = false) :
    submit E db req = ⟨Outcome.badRequest BadRequest.invalidQuestionName, db, []⟩ := by
  simp only [submit, hct, hinc, hq, hf, hpath]
  simp

/-- C3 at a failing input: the identifier `../questions-old/web-100-x` resolves to
`/app/questions-old/web-100-x`, which is not lexically contained in the root
`/app/questions` but contains it as a substring; the check on line 113 lets it pass, the
handler stats the directory and reads its digest file outside the root, and the
submission is credited.  The absolute path `/srv/mirror/app/questions/x` passes the check
in the same way. -/
theorem C3_containment_check_bypassed :
    questionPathOf toyEnv "../questions-old/web-100-x".toList
      = "/app/questions-old/web-100-x".toList ∧
    lexicallyContained toyEnv.questionsPath
      (questionPathOf toyEnv "../questions-old/web-100-x".toList) = false ∧
    includes (questionPathOf toyEnv "../questions-old/web-100-x".toList)
      toyEnv.questionsPath = true ∧
    (submit toyEnv (toyDB [])
      (toySubmit (alice (JSNum.fin 100)) "../questions-old/web-100-x")).outcome
        = Outcome.credited ∧
    (submit toyEnv (toyDB [])
      (toySubmit (alice (JSNum.fin 100)) "../questions-old/web-100-x")).fsLog
        = [FsOp.stat "/app/questions-old/web-100-x".toList,
           FsOp.read "/app/questions-old/web-100-x/flag.sha3-512".toList] ∧
    lexicallyContained toyEnv.questionsPath
      (questionPathOf toyEnv "/srv/mirror/app/questions/x".toList) = false ∧
    includes (questionPathOf toyEnv "/srv/mirror/app/questions/x".toList)
      toyEnv.questionsPath = true := by
  decide

/-! ## C10: keys of challenges -/

theorem splitOn_no_sep (sep : Char) (l : Str) : ∀ p ∈ splitOn sep l, sep ∉ p := by
  induction l with
  | nil => intro p hp; simp [splitOn] at hp; simp [hp]
  | cons c cs ih =>
    intro p hp
    unfold splitOn at hp
    split at hp
    · rcases List.mem_cons.mp hp with rfl | h
      · simp
      · exact ih p h
    · rename_i hc
      split at hp
      · simp only [List.mem_singleton] at hp
        subst hp
        simpa using Ne.symm hc
      · rename_i h t heq
        rcases List.mem_cons.mp hp with rfl | hmem
        · have := ih h (by rw [heq]; exact List.mem_cons_self _ _)
          simp only [List.mem_cons, not_or]
          exact ⟨Ne.symm hc, this⟩
        · exact ih p (by rw [heq]; exact List.mem_cons_of_mem _ hmem)

theorem splitOn_ne_nil (sep : Char) (l : Str) : splitOn sep l ≠ [] := by
  cases l with
  | nil => simp [splitOn]
  | cons c cs =>
    unfold splitOn
    split
    · simp
    · split <;> simp

theorem splitOn_cons_ne (sep c : Char) (cs : Str) (h : c ≠ sep) :
    splitOn sep (c :: cs) =
      match splitOn sep cs with
      | [] => [[c]]
      | p :: t => (c :: p) :: t := by
  rw [splitOn, if_neg h]

theorem splitOn_append_sep (sep : Char) (s r : Str) (h : sep ∉ s) :
    splitOn sep (s ++ sep :: r) = s :: splitOn sep r := by
  induction s with
  | nil => simp [splitOn]
  | cons c cs ih =>
    simp only [List.mem_cons, not_or] at h
    have hc : c ≠ sep := Ne.symm h.1
    have ih' := ih h.2
    rw [List.cons_append, splitOn_cons_ne sep c _ hc, ih']

theorem splitOn_of_not_mem (sep : Char) (s : Str) (h : sep ∉ s) : splitOn sep s = [s] := by
  induction s with
  | nil => rfl
  | cons c cs ih =>
    simp only [List.mem_cons, not_or] at h
    have hc : c ≠ sep := Ne.symm h.1
    have ih' := ih h.2
    rw [splitOn_cons_ne sep c _ hc, ih']

theorem splitOn_joinWith (segs : List Str) (hne : segs ≠ [])
    (h : ∀ s ∈ segs, '/' ∉ s) : splitOn '/' (joinWith '/' segs) = segs := by
  induction segs with
  | nil => exact absurd rfl hne
  | cons s rest ih =>
    cases rest with
    | nil => exact splitOn_of_not_mem '/' s (h s (List.mem_cons_self _ _))
    | cons t rest' =>
      simp only [joinWith]
      rw [splitOn_append_sep '/' s _ (h s (List.mem_cons_self _ _)),
        ih (by simp) (fun x hx => h x (List.mem_cons_of_mem _ hx))]

theorem normalize_foldl_clean (segs acc : List Str) (h : ∀ s ∈ segs, CleanSegment s) :
    segs.foldl (fun acc s =>
      if s = [] ∨ s = ['.'] then acc
      else if s = ['.', '.'] then acc.dropLast
      else acc ++ [s]) acc = acc ++ segs := by
  induction segs generalizing acc with
  | nil => simp
  | cons s rest ih =>
    obtain ⟨h1, h2, h3, _⟩ := h s (List.mem_cons_self _ _)
    simp only [List.foldl_cons, h1, h2, h3, or_self, if_false]
    rw [ih _ (fun x hx => h x (List.mem_cons_of_mem _ hx))]
    simp

theorem normalize_foldl_mem (segs acc : List Str) (hacc : ∀ s ∈ acc, CleanSegment s)
    (h : ∀ s ∈ segs, '/' ∉ s) :
    ∀ s ∈ segs.foldl (fun acc s =>
      if s = [] ∨ s = ['.'] then acc
      else if s = ['.', '.'] then acc.dropLast
      else acc ++ [s]) acc, CleanSegment s := by
  induction segs generalizing acc with
  | nil => simpa using hacc
  | cons x rest ih =>
    simp only [List.foldl_cons]
    apply ih
    · split
      · exact hacc
      · rename_i h12
        split
        · exact fun s hs => hacc s (List.mem_of_mem_dropLast hs)
        · rename_i h3
          intro s hs
          rcases List.mem_append.mp hs with hs | hs
          · exact hacc s hs
          · simp only [List.mem_singleton] at hs
            subst hs
            simp only [not_or] at h12
            exact ⟨h12.1, h12.2, h3, h s (List.mem_cons_self _ _)⟩
    · exact fun s hs => h s (List.mem_cons_of_mem _ hs)

theorem resolveSegments_clean (cwd a b : Str) :
    ∀ s ∈ resolveSegments cwd a b, CleanSegment s := by
  unfold resolveSegments normalizeSegments
  exact normalize_foldl_mem _ [] (by simp) (splitOn_no_sep '/' _)

theorem resolveSegments_of_resolved (cwd : Str) (segs : List Str)
    (h : ∀ s ∈ segs, CleanSegment s) :
    resolveSegments cwd [] ('/' :: joinWith '/' segs) = segs := by
  have habs : isAbsolute ('/' :: joinWith '/' segs) = true := by simp [isAbsolute]
  unfold resolveSegments
  simp only [habs, if_true]
  have hsplit : splitOn '/' ('/' :: joinWith '/' segs) = [] :: splitOn '/' (joinWith '/' segs) := by
    simp [splitOn]
  rw [hsplit]
  unfold normalizeSegments
  simp only [List.foldl_cons, true_or, if_true]
  cases segs with
  | nil => simp [joinWith, splitOn]
  | cons s rest =>
    rw [splitOn_joinWith _ (by simp) (fun x hx => (h x hx).2.2.2), normalize_foldl_clean _ _ h]
    simp

theorem commonPrefixLength_append (r x : List Str) :
    commonPrefixLength r (r ++ x) = r.length := by
  induction r with
  | nil => cases x <;> simp [commonPrefixLength]
  | cons a r ih => simp [commonPrefixLength, ih]

theorem questionName_of_child (E : Env) (id seg : Str)
    (h : resolveSegments E.cwd E.questionsPath id
      = resolveSegments E.cwd [] E.questionsPath ++ [seg]) :
    questionNameOf E (questionPathOf E id) = seg := by
  have hclean := resolveSegments_clean E.cwd E.questionsPath id
  have hseg : CleanSegment seg := hclean seg (by rw [h]; simp)
  unfold questionNameOf pathRelative questionPathOf pathResolve
  simp only
  rw [resolveSegments_of_resolved E.cwd _ hclean, h, commonPrefixLength_append]
  simp only [Nat.sub_self, List.replicate_zero, List.nil_append, List.drop_left, joinWith]
  unfold removeSlashes
  rw [List.filter_eq_self]
  intro c hc
  have : c ≠ '/' := fun hEq => hseg.2.2.2 (hEq ▸ hc)
  simpa using this

/-- C10, as stated, fails: `web-100-a/b` and `web-100-ab` both pass the containment check
and resolve to different directories, and both are recorded under the key `web-100-ab`. -/
theorem C10_keys_collide :
    includes (questionPathOf toyEnv "web-100-a/b".toList) toyEnv.questionsPath = true ∧
    includes (questionPathOf toyEnv "web-100-ab".toList) toyEnv.questionsPath = true ∧
    questionPathOf toyEnv "web-100-a/b".toList ≠ questionPathOf toyEnv "web-100-ab".toList ∧
    questionNameOf toyEnv (questionPathOf toyEnv "web-100-a/b".toList)
      = "web-100-ab".toList ∧
    questionNameOf toyEnv (questionPathOf toyEnv "web-100-ab".toList)
      = "web-100-ab".toList := by
  decide

/-- C10, amended. For every root and every two question identifiers whose resolved paths
are direct children of the resolved root (the segments of the root followed by one more
segment), the key of each is that last segment, and when the resolved paths differ the
keys differ. -/
theorem C10_keys_of_direct_children (E : Env) (id₁ id₂ seg₁ seg₂ : Str)
    (h₁ : resolveSegments E.cwd E.questionsPath id₁
      = resolveSegments E.cwd [] E.questionsPath ++ [seg₁])
    (h₂ : resolveSegments E.cwd E.questionsPath id₂
      = resolveSegments E.cwd [] E.questionsPath ++ [seg₂])
    (hne : questionPathOf E id₁ ≠ questionPathOf E id₂) :
    questionNameOf E (questionPathOf E id₁) = seg₁ ∧
    questionNameOf E (questionPathOf E id₂) = seg₂ ∧
    questionNameOf E (questionPathOf E id₁) ≠ questionNameOf E (questionPathOf E id₂) := by
  have k₁ := questionName_of_child E id₁ seg₁ h₁
  have k₂ := questionName_of_child E id₂ seg₂ h₂
  refine ⟨k₁, k₂, ?_⟩
  rw [k₁, k₂]
  rintro rfl
  apply hne
  unfold questionPathOf pathResolve
  rw [h₁, h₂]

/-- C10, amended, at the worked deployment: `web-100-a` and `./web-100-b`. -/
theorem C10_keys_of_direct_children_witness :
    questionPathOf toyEnv "web-100-a".toList ≠ questionPathOf toyEnv "./web-100-b".toList ∧
    questionNameOf toyEnv (questionPathOf toyEnv "web-100-a".toList)
      ≠ questionNameOf toyEnv (questionPathOf toyEnv "./web-100-b".toList) :=
  ⟨by decide,
    (C10_keys_of_direct_children toyEnv "web-100-a".toList "./web-100-b".toList
      "web-100-a".toList "web-100-b".toList (by decide) (by decide) (by decide)).2.2⟩


/-! ## C6: who carries the first-solve bonus -/

theorem findByQuestion_append_some (scores extra : List ScoreDoc) (q : Str) (d : ScoreDoc)
    (h : findByQuestion scores q = some d) : findByQuestion (scores ++ extra) q = some d := by
  unfold findByQuestion at h ⊢
  rw [List.find?_append, h]
  rfl

theorem findByUserQuestion_none_of_question (scores : List ScoreDoc) (u q : Str)
    (h : findByQuestion scores q = none) : findByUserQuestion scores u q = none := by
  unfold findByQuestion at h
  unfold findByUserQuestion
  rw [List.find?_eq_none] at h ⊢
  intro d hd
  have := h d hd
  simp only [decide_eq_true_eq] at this ⊢
  exact fun hc => this hc.2

theorem findByUserQuestion_append_other (scores : List ScoreDoc) (u v q : Str) (s : JSNum)
    (h : findByUserQuestion scores u q = none) (hne : v ≠ u) :
    findByUserQuestion (scores ++ [⟨v, q, s⟩]) u q = none := by
  unfold findByUserQuestion at h ⊢
  rw [List.find?_append, h]
  simp [hne]

theorem submit_scores_of_first_time (E : Env) (db : DB) (req : Request) (c : Str)
    (hc : Correct E req) (hkey : keyOf E req = c)
    (hnone : findByUserQuestion db.scores req.user.username c = none) :
    (submit E db req).db.scores = db.scores ++ [⟨req.user.username, c, award db.scores c⟩] := by
  rw [submit_of_correct E db req hc, hkey, credit_of_none db req.user c hnone]

theorem later_solvers (E : Env) (c : Str) (reqs : List Request) :
    ∀ (db : DB) (d : ScoreDoc),
      (∀ r ∈ reqs, Correct E r ∧ keyOf E r = c) →
      (reqs.map (fun r => r.user.username)).Nodup →
      findByQuestion db.scores c = some d →
      (∀ r ∈ reqs, findByUserQuestion db.scores r.user.username c = none) →
      (submitAll E db reqs).scores
        = db.scores ++ reqs.map (fun r => ⟨r.user.username, c, baseScore c⟩) := by
  induction reqs with
  | nil => intro db d _ _ _ _; simp [submitAll]
  | cons r rs ih =>
    intro db d hcorrect hdistinct hsome hnone
    have hr := hcorrect r (List.mem_cons_self _ _)
    have hstep := submit_scores_of_first_time E db r c hr.1 hr.2
      (hnone r (List.mem_cons_self _ _))
    have haward : award db.scores c = baseScore c := by simp [award, hsome]
    rw [haward] at hstep
    rw [List.map_cons, List.nodup_cons] at hdistinct
    unfold submitAll
    rw [ih (submit E db r).db d (fun x hx => hcorrect x (List.mem_cons_of_mem _ hx))
      hdistinct.2 (by rw [hstep]; exact findByQuestion_append_some _ _ _ _ hsome), hstep]
    · simp
    · intro x hx
      rw [hstep]
      apply findByUserQuestion_append_other _ _ _ _ _ (hnone x (List.mem_cons_of_mem _ hx))
      intro heq
      exact hdistinct.1 (List.mem_map.mpr ⟨x, hx, heq.symm⟩)

theorem submitAll_first_solvers (E : Env) (db : DB) (c : Str) (reqs : List Request)
    (hcorrect : ∀ r ∈ reqs, Correct E r ∧ keyOf E r = c)
    (hdistinct : (reqs.map (fun r => r.user.username)).Nodup)
    (hfresh : findByQuestion db.scores c = none) :
    (submitAll E db reqs).scores
      = db.scores ++ solvesWith c (bonusScore (baseScore c)) (baseScore c) reqs := by
  cases reqs with
  | nil => simp [submitAll, solvesWith]
  | cons r rs =>
    have hr := hcorrect r (List.mem_cons_self _ _)
    have hstep := submit_scores_of_first_time E db r c hr.1 hr.2
      (findByUserQuestion_none_of_question _ _ _ hfresh)
    have haward : award db.scores c = bonusScore (baseScore c) := by simp [award, hfresh]
    rw [haward] at hstep
    rw [List.map_cons, List.nodup_cons] at hdistinct
    have hfirst : findByQuestion (submit E db r).db.scores c
        = some ⟨r.user.username, c, bonusScore (baseScore c)⟩ := by
      rw [hstep]
      unfold findByQuestion at hfresh ⊢
      rw [List.find?_append, hfresh]
      simp
    unfold submitAll
    rw [later_solvers E c rs (submit E db r).db _
      (fun x hx => hcorrect x (List.mem_cons_of_mem _ hx)) hdistinct.2 hfirst, hstep]
    · simp [solvesWith]
    · intro x hx
      rw [hstep]
      apply findByUserQuestion_append_other _ _ _ _ _
        (findByUserQuestion_none_of_question _ _ _ hfresh)
      intro heq
      exact hdistinct.1 (List.mem_map.mpr ⟨x, hx, heq.symm⟩)

theorem solvesWith_take (c : Str) (first later : JSNum) (reqs : List Request) (k : Nat) :
    solvesWith c first later (reqs.take k) = (solvesWith c first later reqs).take k := by
  cases k with
  | zero => simp [solvesWith]
  | succ k =>
    cases reqs with
    | nil => simp [solvesWith]
    | cons r rs => simp [solvesWith, List.map_take]

set_option maxRecDepth 100000 in
/-- C6, as stated, fails: `alice`, then `bob`, solve `pwn-1000000000000000000000-x`, whose
base score is `10 ^ 21`; the document of the first solver carries the score 1, not
`floor(10 ^ 21 * 1.1)`, and the document of the later solver carries `10 ^ 21`. -/
theorem C6_bonus_record_not_floor :
    baseScore "pwn-1000000000000000000000-x".toList = JSNum.fin (10 ^ 21) ∧
    10 ^ 21 * 11 / 10 = 1100000000000000000000 ∧
    (submitAll toyEnv (toyDB [])
      [toySubmit (alice (JSNum.fin 100)) "pwn-1000000000000000000000-x",
       toySubmit (bob (JSNum.fin 7)) "pwn-1000000000000000000000-x"]).scores
      = [⟨"alice".toList, "pwn-1000000000000000000000-x".toList, JSNum.fin 1⟩,
         ⟨"bob".toList, "pwn-1000000000000000000000-x".toList, JSNum.fin (10 ^ 21)⟩] := by
  decide

/-- C6, amended. For a challenge `c` whose base score is a natural `b < 511772684928469`:
when correct submissions for `c` by pairwise distinct users are handled one after the
other, starting without any `Score` document for `c`, the documents created are, in order
of creation, the one of the first solver with the score `floor(b * 11 / 10)` in exact
arithmetic and one with the score `b` for every later solver; the documents present after
any number of these submissions stay as they are when the later submissions are handled. -/
theorem C6_first_solve_bonus (E : Env) (db : DB) (c : Str) (b : Nat) (reqs : List Request)
    (hbase : baseScore c = JSNum.fin b) (hbound : b < 511772684928469)
    (hcorrect : ∀ r ∈ reqs, Correct E r ∧ keyOf E r = c)
    (hdistinct : (reqs.map (fun r => r.user.username)).Nodup)
    (hfresh : findByQuestion db.scores c = none) :
    (submitAll E db reqs).scores = db.scores ++ expectedSolves c b reqs ∧
    (∀ k, (submitAll E db (reqs.take k)).scores <+: (submitAll E db reqs).scores) := by
  have hall : ∀ rs : List Request, (∀ r ∈ rs, Correct E r ∧ keyOf E r = c) →
      (rs.map (fun r => r.user.username)).Nodup →
      (submitAll E db rs).scores = db.scores ++ expectedSolves c b rs := by
    intro rs h1 h2
    rw [submitAll_first_solvers E db c rs h1 h2 hfresh, hbase, bonusScore_exact b hbound]
    rfl
  refine ⟨hall reqs hcorrect hdistinct, ?_⟩
  intro k
  rw [hall reqs hcorrect hdistinct,
    hall (reqs.take k) (fun r hr => hcorrect r (List.mem_of_mem_take hr))
      ((List.take_sublist k reqs).map _ |>.nodup hdistinct)]
  unfold expectedSolves
  rw [solvesWith_take]
  exact (List.prefix_append_right_inj _).mpr (List.take_prefix _ _)

/-- C6, amended, at the worked deployment: `alice`, then `bob`, solve `crypto-500-warmup`,
whose base score is 500. -/
theorem C6_first_solve_bonus_witness :
    baseScore "crypto-500-warmup".toList = JSNum.fin 500 ∧
    findByQuestion (toyDB []).scores "crypto-500-warmup".toList = none ∧
    (submitAll toyEnv (toyDB [])
      [toySubmit (alice (JSNum.fin 100)) "crypto-500-warmup",
       toySubmit (bob (JSNum.fin 7)) "crypto-500-warmup"]).scores
      = [⟨"alice".toList, "crypto-500-warmup".toList, JSNum.fin 550⟩,
         ⟨"bob".toList, "crypto-500-warmup".toList, JSNum.fin 500⟩] :=
  ⟨by decide, by decide,
    (C6_first_solve_bonus toyEnv (toyDB []) "crypto-500-warmup".toList 500
      [toySubmit (alice (JSNum.fin 100)) "crypto-500-warmup",
       toySubmit (bob (JSNum.fin 7)) "crypto-500-warmup"]
      (by decide) (by norm_num)
      (by
        intro r hr
        simp only [List.mem_cons, List.mem_singleton, List.not_mem_nil, or_false] at hr
        rcases hr with rfl | rfl <;> exact ⟨toy_correct _, toy_keyOf _⟩)
      (by decide) (by decide)).1.trans (by decide)⟩

/-! ## C2: racing requests -/

theorem set_decompose (l : List Task) (i : Nat) (t b : Task) (h : l.get? i = some t) :
    ∃ pre post, l = pre ++ t :: post ∧ l.set i b = pre ++ b :: post := by
  induction l generalizing i with
  | nil => simp at h
  | cons a l ih =>
    cases i with
    | zero =>
      simp only [List.get?_cons_zero, Option.some.injEq] at h
      subst h
      exact ⟨[], l, rfl, rfl⟩
    | succ i =>
      simp only [List.get?_cons_succ] at h
      obtain ⟨pre, post, h1, h2⟩ := ih i h
      refine ⟨a :: pre, post, ?_, ?_⟩
      · rw [List.cons_append, ← h1]
      · rw [List.set_cons_succ, h2, List.cons_append]

theorem forall_replace {P Q : Task → Prop} {pre post : List Task} {t t' : Task}
    (h : ∀ x ∈ pre ++ t :: post, P x) (hPQ : ∀ x, P x → Q x) (ht : Q t') :
    ∀ x ∈ pre ++ t' :: post, Q x := by
  intro x hx
  simp only [List.mem_append, List.mem_cons] at hx h
  rcases hx with hx | rfl | hx
  · exact hPQ x (h x (Or.inl hx))
  · exact ht
  · exact hPQ x (h x (Or.inr (Or.inr hx)))

theorem exists_replace {Q : Task → Prop} {pre post : List Task} {t t' : Task}
    (h : ∃ x ∈ pre ++ t :: post, Q x) (hq : Q t → Q t') :
    ∃ x ∈ pre ++ t' :: post, Q x := by
  obtain ⟨x, hx, hQ⟩ := h
  simp only [List.mem_append, List.mem_cons] at hx
  rcases hx with hx | rfl | hx
  · exact ⟨x, by simp [hx], hQ⟩
  · exact ⟨t', by simp, hq hQ⟩
  · exact ⟨x, by simp [hx], hQ⟩

theorem exists_new {Q : Task → Prop} (pre post : List Task) (t' : Task) (ht : Q t') :
    ∃ x ∈ pre ++ t' :: post, Q x := ⟨t', by simp, ht⟩

theorem upsertScore_idem (u q : Str) (s : JSNum) (l : List ScoreDoc) :
    upsertScore u q s (upsertScore u q s l) = upsertScore u q s l := by
  induction l with
  | nil => simp [upsertScore]
  | cons d ds ih =>
    by_cases hm : d.username = u ∧ d.question = q
    · simp [upsertScore, hm]
    · simp [upsertScore, hm, ih]

theorem updateUserScore_idem (id : Nat) (s : JSNum) (l : List UserDoc) :
    updateUserScore id s (updateUserScore id s l) = updateUserScore id s l := by
  induction l with
  | nil => simp [updateUserScore]
  | cons d ds ih =>
    by_cases hm : d.id = id
    · simp [updateUserScore, hm]
    · simp [updateUserScore, hm, ih]

theorem race_upsert_first (db : DB) (user : SessionUser) (q : Str)
    (hnone : findByUserQuestion db.scores user.username q = none) :
    upsertScore user.username q (award db.scores q) db.scores
      = db.scores ++ [raceDoc db user q] :=
  upsertScore_of_none _ _ _ _ hnone

theorem race_upsert_again (db : DB) (user : SessionUser) (q : Str)
    (hnone : findByUserQuestion db.scores user.username q = none) :
    upsertScore user.username q (award db.scores q) (db.scores ++ [raceDoc db user q])
      = db.scores ++ [raceDoc db user q] := by
  rw [← race_upsert_first db user q hnone, upsertScore_idem]

theorem race_find (db : DB) (user : SessionUser) (q : Str)
    (hnone : findByUserQuestion db.scores user.username q = none) :
    findByUserQuestion (db.scores ++ [raceDoc db user q]) user.username q
      = some (raceDoc db user q) := by
  rw [← race_upsert_first db user q hnone, findByUserQuestion_upsert]
  rfl

theorem raceInv_step (db : DB) (user : SessionUser) (q : Str)
    (hnone : findByUserQuestion db.scores user.username q = none) (i : Nat) (sys : Sys)
    (h : RaceInv db user q sys) : RaceInv db user q (stepAt i sys) := by
  unfold stepAt
  cases hget : sys.tasks.get? i with
  | none => exact h
  | some t =>
    obtain ⟨pre, post, hl, hset⟩ := set_decompose sys.tasks i t (stepTask sys.db t).2 hget
    obtain ⟨⟨scores, users⟩, tasks⟩ := sys
    simp only at hl hset hget ⊢
    subst hl
    rw [hset]
    obtain ⟨hall, hphase⟩ := h
    simp only at hall hphase
    have htu := hall t (by simp)
    obtain ⟨tu, tq, st⟩ := t
    simp only at htu
    obtain ⟨rfl, rfl⟩ := htu
    have hall' : ∀ (st' : Stage) (x : Task),
        x ∈ pre ++ (⟨tu, tq, st'⟩ : Task) :: post → x.user = tu ∧ x.questionName = tq :=
      fun st' => forall_replace hall (fun _ hx => hx) ⟨rfl, rfl⟩
    rcases hphase with ⟨hdb, hstages⟩ | ⟨hscores, hstages, husers⟩
    · -- nothing written yet
      obtain ⟨rfl, rfl⟩ : scores = db.scores ∧ users = db.users := by
        cases db; simp only [DB.mk.injEq] at hdb; exact hdb
      have hst := hstages ⟨tu, tq, st⟩ (by simp)
      simp only at hst
      rcases hst with rfl | rfl | rfl
      · exact ⟨hall' _, Or.inl ⟨rfl,
          forall_replace hstages (fun _ hx => hx) (Or.inr (Or.inl rfl))⟩⟩
      · refine ⟨?_, Or.inl ⟨?_, ?_⟩⟩
        · simp only [stepTask, hnone]; exact hall' _
        · simp only [stepTask, hnone]
        · simp only [stepTask, hnone]
          exact forall_replace hstages (fun _ hx => hx) (Or.inr (Or.inr rfl))
      · refine ⟨hall' _, Or.inr ⟨?_, ?_, Or.inl ⟨rfl, ?_, ?_⟩⟩⟩
        · exact race_upsert_first db tu tq hnone
        · refine forall_replace hstages ?_ (Or.inr (Or.inr (Or.inr (Or.inl rfl))))
          rintro x (hx | hx | hx)
          · exact Or.inl hx
          · exact Or.inr (Or.inl ⟨_, hx⟩)
          · exact Or.inr (Or.inr (Or.inl hx))
        · refine forall_replace hstages ?_ (by simp [stepTask])
          rintro x (hx | hx | hx) <;> simp [hx]
        · exact exists_new pre post _ rfl
    · -- the document is written
      subst hscores
      have hst := hstages ⟨tu, tq, st⟩ (by simp)
      simp only at hst
      rcases hst with rfl | ⟨s, rfl⟩ | rfl | rfl | rfl | rfl
      · -- start
        refine ⟨hall' _, Or.inr ⟨rfl, ?_, ?_⟩⟩
        · exact forall_replace hstages (fun _ hx => hx) (Or.inr (Or.inl ⟨_, rfl⟩))
        · rcases husers with ⟨hu, hnc, hex⟩ | ⟨hu, hex⟩
          · exact Or.inl ⟨hu, forall_replace hnc (fun _ hx => hx) (by simp [stepTask]),
              exists_replace hex (by simp [stepTask])⟩
          · exact Or.inr ⟨hu, exists_replace hex (by simp [stepTask])⟩
      · -- scored
        have hfind := race_find db tu tq hnone
        refine ⟨?_, Or.inr ⟨?_, ?_, ?_⟩⟩
        · simp only [stepTask, hfind]; exact hall' _
        · simp only [stepTask, hfind]
        · simp only [stepTask, hfind]
          exact forall_replace hstages (fun _ hx => hx)
            (Or.inr (Or.inr (Or.inr (Or.inr (Or.inr rfl)))))
        · simp only [stepTask, hfind]
          rcases husers with ⟨hu, hnc, hex⟩ | ⟨hu, hex⟩
          · exact Or.inl ⟨hu, forall_replace hnc (fun _ hx => hx) (by simp [stepTask]),
              exists_replace hex (by simp [stepTask])⟩
          · exact Or.inr ⟨hu, exists_replace hex (by simp [stepTask])⟩
      · -- absent
        refine ⟨hall' _, Or.inr ⟨race_upsert_again db tu tq hnone, ?_, ?_⟩⟩
        · exact forall_replace hstages (fun _ hx => hx)
            (Or.inr (Or.inr (Or.inr (Or.inl rfl))))
        · rcases husers with ⟨hu, hnc, _⟩ | ⟨hu, _⟩
          · exact Or.inl ⟨hu, forall_replace hnc (fun _ hx => hx) (by simp [stepTask]),
              exists_new pre post _ rfl⟩
          · exact Or.inr ⟨hu, exists_new pre post _ (Or.inl rfl)⟩
      · -- recorded
        refine ⟨hall' _, Or.inr ⟨rfl, ?_, Or.inr ⟨?_, exists_new pre post _ (Or.inr rfl)⟩⟩⟩
        · exact forall_replace hstages (fun _ hx => hx)
            (Or.inr (Or.inr (Or.inr (Or.inr (Or.inl rfl)))))
        · rcases husers with ⟨hu, _, _⟩ | ⟨hu, _⟩
          · subst hu
            rfl
          · subst hu
            exact updateUserScore_idem _ _ _
      · exact ⟨hall, Or.inr ⟨rfl, hstages, husers⟩⟩
      · exact ⟨hall, Or.inr ⟨rfl, hstages, husers⟩⟩

theorem done_of_isDone (st : Stage) (h : st.isDone = true) : ∃ o, st = Stage.done o := by
  cases st <;> simp [Stage.isDone] at h
  exact ⟨_, rfl⟩

theorem raceInv_run (db : DB) (user : SessionUser) (q : Str)
    (hnone : findByUserQuestion db.scores user.username q = none) (sched : List Nat) :
    ∀ sys, RaceInv db user q sys → RaceInv db user q (runSchedule sched sys) := by
  induction sched with
  | nil => exact fun _ h => h
  | cons i is ih => exact fun sys h => ih _ (raceInv_step db user q hnone i sys h)

theorem raceInv_init (db : DB) (user : SessionUser) (q : Str) (n : Nat) :
    RaceInv db user q (concurrentSubmits db user q n) := by
  refine ⟨?_, Or.inl ⟨rfl, ?_⟩⟩
  · intro t ht
    rw [List.eq_of_mem_replicate ht]
    exact ⟨rfl, rfl⟩
  · intro t ht
    rw [List.eq_of_mem_replicate ht]
    exact Or.inl rfl

theorem stepAt_length (i : Nat) (sys : Sys) : (stepAt i sys).tasks.length = sys.tasks.length := by
  unfold stepAt
  cases sys.tasks.get? i <;> simp

theorem runSchedule_length (sched : List Nat) :
    ∀ sys, (runSchedule sched sys).tasks.length = sys.tasks.length := by
  induction sched with
  | nil => exact fun _ => rfl
  | cons i is ih => exact fun sys => (ih _).trans (stepAt_length i sys)

theorem runSchedule_single (db : DB) (user : SessionUser) (q : Str) :
    runSchedule [0, 0, 0, 0] ⟨db, [⟨user, q, Stage.start⟩]⟩
      = ⟨(credit db user q).2, [⟨user, q, Stage.done (credit db user q).1⟩]⟩ := by
  cases h : findByUserQuestion db.scores user.username q <;>
    simp [runSchedule, stepAt, stepTask, credit, h]

/-- C2, as stated, fails: two requests of `alice` for `crypto-500-warmup` whose two
`findOne` queries both run before either upsert are both answered as credited, and none is
answered 'Already submitted.'; one `Score` document and one credit result. -/
theorem C2_both_requests_credited :
    (runSchedule [0, 1, 0, 1, 0, 0, 1, 1]
      (concurrentSubmits (toyDB []) (alice (JSNum.fin 100)) "crypto-500-warmup".toList 2)).tasks.map
        (fun t => t.stage)
      = [Stage.done Outcome.credited, Stage.done Outcome.credited] ∧
    (runSchedule [0, 1, 0, 1, 0, 0, 1, 1]
      (concurrentSubmits (toyDB []) (alice (JSNum.fin 100)) "crypto-500-warmup".toList 2)).db
      = ⟨[⟨"alice".toList, "crypto-500-warmup".toList, JSNum.fin 550⟩],
         [⟨1, "alice".toList, JSNum.fin 650⟩, ⟨2, "bob".toList, JSNum.fin 7⟩]⟩ := by
  decide

theorem rank_stepTask (db : DB) (t : Task) :
    (stepTask db t).2.stage.rank ≤ t.stage.rank - 1 := by
  obtain ⟨u, q, st⟩ := t
  cases st with
  | start => simp [stepTask, Stage.rank]
  | scored s =>
    simp only [stepTask]
    cases findByUserQuestion db.scores u.username q <;> simp [Stage.rank]
  | absent s => simp [stepTask, Stage.rank]
  | recorded s => simp [stepTask, Stage.rank]
  | done o => simp [stepTask, Stage.rank]

theorem rankAt_of_some (sys : Sys) (i : Nat) (t : Task) (h : sys.tasks.get? i = some t) :
    rankAt sys i = t.stage.rank := by
  unfold rankAt
  rw [h]

theorem rankAt_of_none (sys : Sys) (i : Nat) (h : sys.tasks.get? i = none) :
    rankAt sys i = 0 := by
  unfold rankAt
  rw [h]

theorem stepAt_of_none (sys : Sys) (j : Nat) (h : sys.tasks.get? j = none) :
    stepAt j sys = sys := by
  unfold stepAt
  rw [h]

theorem stepAt_of_some (sys : Sys) (j : Nat) (t : Task) (h : sys.tasks.get? j = some t) :
    stepAt j sys = ⟨(stepTask sys.db t).1, sys.tasks.set j (stepTask sys.db t).2⟩ := by
  unfold stepAt
  rw [h]

theorem rankAt_stepAt (i j : Nat) (sys : Sys) :
    rankAt (stepAt j sys) i ≤ rankAt sys i - (if j = i then 1 else 0) := by
  cases hget : sys.tasks.get? j with
  | none =>
    rw [stepAt_of_none sys j hget]
    by_cases hji : j = i
    · subst hji
      rw [rankAt_of_none sys j hget]
      exact Nat.zero_le _
    · rw [if_neg hji]
      exact Nat.le_refl _
  | some t =>
    rw [stepAt_of_some sys j t hget]
    by_cases hji : j = i
    · subst hji
      have hlt : j < sys.tasks.length := by
        rw [List.get?_eq_some] at hget
        exact hget.1
      have hnew : (sys.tasks.set j (stepTask sys.db t).2).get? j
          = some (stepTask sys.db t).2 := by
        rw [List.get?_eq_getElem?, List.getElem?_set_self hlt]
      rw [rankAt_of_some _ j _ hnew, rankAt_of_some sys j t hget, if_pos rfl]
      exact rank_stepTask sys.db t
    · have hother : (sys.tasks.set j (stepTask sys.db t).2).get? i = sys.tasks.get? i := by
        rw [List.get?_eq_getElem?, List.get?_eq_getElem?, List.getElem?_set_ne hji]
      have hsame : rankAt ⟨(stepTask sys.db t).1, sys.tasks.set j (stepTask sys.db t).2⟩ i
          = rankAt sys i := by
        unfold rankAt
        rw [hother]
      rw [hsame, if_neg hji]
      exact Nat.le_refl _

theorem rankAt_runSchedule (sched : List Nat) (i : Nat) :
    ∀ sys, rankAt (runSchedule sched sys) i ≤ rankAt sys i - sched.count i := by
  induction sched with
  | nil => intro sys; simp [runSchedule]
  | cons j js ih =>
    intro sys
    have h1 := ih (stepAt j sys)
    have h2 := rankAt_stepAt i j sys
    have h3 : (j :: js).count i = js.count i + (if j = i then 1 else 0) := by
      rw [List.count_cons]
      by_cases hji : j = i <;> simp [hji]
    unfold runSchedule
    omega

theorem isDone_of_rank (st : Stage) (h : st.rank = 0) : st.isDone = true := by
  cases st <;> simp [Stage.rank] at h
  rfl

theorem allDone_of_turns (db : DB) (user : SessionUser) (q : Str) (n : Nat)
    (sched : List Nat) (hturns : ∀ i, i < n → 4 ≤ sched.count i) :
    allDone (runSchedule sched (concurrentSubmits db user q n)) := by
  intro t ht
  obtain ⟨i, hi, hti⟩ := List.getElem_of_mem ht
  have hlen : i < n := by
    rw [runSchedule_length] at hi
    simpa [concurrentSubmits] using hi
  have hget : (runSchedule sched (concurrentSubmits db user q n)).tasks.get? i = some t := by
    rw [List.get?_eq_getElem?, List.getElem?_eq_getElem hi, hti]
  have hrank := rankAt_runSchedule sched i (concurrentSubmits db user q n)
  have hinit : rankAt (concurrentSubmits db user q n) i = 4 := by
    have hstart : (concurrentSubmits db user q n).tasks.get? i
        = some ⟨user, q, Stage.start⟩ := by
      show (List.replicate n (⟨user, q, Stage.start⟩ : Task)).get? i = _
      rw [List.get?_eq_getElem?, List.getElem?_replicate, if_pos hlen]
    rw [rankAt_of_some _ i _ hstart]
    rfl
  have hcount := hturns i hlen
  rw [rankAt_of_some _ i t hget, hinit] at hrank
  apply isDone_of_rank
  omega

theorem racing_requests_of_done (db : DB) (user : SessionUser) (q : Str) (n : Nat)
    (sched : List Nat) (hn : 1 ≤ n)
    (hnew : findByUserQuestion db.scores user.username q = none)
    (hfresh : storedScore db.users user.id = some user.score)
    (hdone : allDone (runSchedule sched (concurrentSubmits db user q n))) :
    1 ≤ (runSchedule sched (concurrentSubmits db user q n)).tasks.countP
      (fun t => decide (t.stage = Stage.done Outcome.credited)) ∧
    (runSchedule sched (concurrentSubmits db user q n)).tasks.countP
        (fun t => decide (t.stage = Stage.done Outcome.credited)) +
      (runSchedule sched (concurrentSubmits db user q n)).tasks.countP
        (fun t => decide (t.stage = Stage.done Outcome.alreadySubmitted)) = n ∧
    (runSchedule sched (concurrentSubmits db user q n)).db.scores
      = db.scores ++ [⟨user.username, q, award db.scores q⟩] ∧
    ((runSchedule sched (concurrentSubmits db user q n)).db.scores.filter
      (fun d => decide (d.username = user.username ∧ d.question = q))).length = 1 ∧
    storedScore (runSchedule sched (concurrentSubmits db user q n)).db.users user.id
      = some (JSNum.add user.score (award db.scores q)) := by
  have hinv := raceInv_run db user q hnew sched _ (raceInv_init db user q n)
  have hlen : (runSchedule sched (concurrentSubmits db user q n)).tasks.length = n := by
    rw [runSchedule_length]
    simp [concurrentSubmits]
  generalize runSchedule sched (concurrentSubmits db user q n) = final at hinv hlen hdone ⊢
  unfold allDone at hdone
  obtain ⟨_, hphase⟩ := hinv
  have hfilter : (db.scores.filter
      (fun d => decide (d.username = user.username ∧ d.question = q))) = [] := by
    unfold findByUserQuestion at hnew
    rw [List.find?_eq_none] at hnew
    rw [List.filter_eq_nil_iff]
    exact hnew
  rcases hphase with ⟨_, hstages⟩ | ⟨hscores, hstages, husers⟩
  · exfalso
    obtain ⟨t, ht⟩ := List.exists_mem_of_length_pos (by omega : 0 < final.tasks.length)
    obtain ⟨o, ho⟩ := done_of_isDone _ (hdone t ht)
    rcases hstages t ht with h | h | h <;> rw [ho] at h <;> simp at h
  · have houtcome : ∀ t ∈ final.tasks, t.stage = Stage.done Outcome.credited ∨
        t.stage = Stage.done Outcome.alreadySubmitted := by
      intro t ht
      obtain ⟨o, ho⟩ := done_of_isDone _ (hdone t ht)
      rcases hstages t ht with h | ⟨s, h⟩ | h | h | h | h
      · rw [ho] at h; simp at h
      · rw [ho] at h; simp at h
      · rw [ho] at h; simp at h
      · rw [ho] at h; simp at h
      · exact Or.inl h
      · exact Or.inr h
    have hcredited : final.db.users = raceUsers db user q ∧
        ∃ t ∈ final.tasks, t.stage = Stage.done Outcome.credited := by
      rcases husers with ⟨_, _, t, ht, hrec⟩ | ⟨hu, t, ht, hrec⟩
      · obtain ⟨o, ho⟩ := done_of_isDone _ (hdone t ht)
        rw [ho] at hrec
        simp at hrec
      · refine ⟨hu, t, ht, ?_⟩
        rcases hrec with hrec | hrec
        · obtain ⟨o, ho⟩ := done_of_isDone _ (hdone t ht)
          rw [ho] at hrec
          simp at hrec
        · exact hrec
    obtain ⟨husers', t, ht, hcred⟩ := hcredited
    refine ⟨?_, ?_, hscores, ?_, ?_⟩
    · exact List.countP_pos_iff.mpr ⟨t, ht, by simpa using hcred⟩
    · have hsplit := List.length_eq_countP_add_countP
        (fun t => decide (t.stage = Stage.done Outcome.credited)) final.tasks
      have hcongr : final.tasks.countP
            (fun t => decide ¬ (decide (t.stage = Stage.done Outcome.credited) = true))
          = final.tasks.countP
            (fun t => decide (t.stage = Stage.done Outcome.alreadySubmitted)) := by
        apply List.countP_congr
        intro x hx
        rcases houtcome x hx with h | h <;> simp [h]
      rw [hcongr] at hsplit
      omega
    · rw [hscores, List.filter_append, hfilter]
      simp [raceDoc]
    · rw [husers']
      exact storedScore_update _ _ _ _ hfresh

/-- C2, amended. For every user, every challenge key for which the user has no `Score`
document yet, every `n ≥ 1` and every interleaving of the database operations of `n`
correct requests of that user for that key, each carrying the stored total as its session
copy, in which every request gets the four turns its four operations need: every request
is answered, at least one as credited and every other one as credited or 'Already
submitted.', the `Score` collection has gained exactly one document for the pair, carrying
the score awarded against the initial collection, and the stored total of the user is the
former total plus that one award. -/
theorem C2_racing_requests (db : DB) (user : SessionUser) (q : Str) (n : Nat)
    (sched : List Nat) (hn : 1 ≤ n)
    (hnew : findByUserQuestion db.scores user.username q = none)
    (hfresh : storedScore db.users user.id = some user.score)
    (hturns : ∀ i, i < n → 4 ≤ sched.count i) :
    allDone (runSchedule sched (concurrentSubmits db user q n)) ∧
    1 ≤ (runSchedule sched (concurrentSubmits db user q n)).tasks.countP
      (fun t => decide (t.stage = Stage.done Outcome.credited)) ∧
    (runSchedule sched (concurrentSubmits db user q n)).tasks.countP
        (fun t => decide (t.stage = Stage.done Outcome.credited)) +
      (runSchedule sched (concurrentSubmits db user q n)).tasks.countP
        (fun t => decide (t.stage = Stage.done Outcome.alreadySubmitted)) = n ∧
    (runSchedule sched (concurrentSubmits db user q n)).db.scores
      = db.scores ++ [⟨user.username, q, award db.scores q⟩] ∧
    ((runSchedule sched (concurrentSubmits db user q n)).db.scores.filter
      (fun d => decide (d.username = user.username ∧ d.question = q))).length = 1 ∧
    storedScore (runSchedule sched (concurrentSubmits db user q n)).db.users user.id
      = some (JSNum.add user.score (award db.scores q)) :=
  ⟨allDone_of_turns db user q n sched hturns,
    racing_requests_of_done db user q n sched hn hnew hfresh
      (allDone_of_turns db user q n sched hturns)⟩

/-- C2, amended, at the worked deployment: three requests of `alice` for
`crypto-500-warmup`; the first two pass both queries before either writes and are both
answered as credited, the third runs afterwards and is answered 'Already submitted.'. -/
theorem C2_racing_requests_witness :
    (∀ i, i < 3 → 4 ≤ [0, 1, 0, 1, 0, 0, 1, 1, 2, 2, 2, 2].count i) ∧
    (runSchedule [0, 1, 0, 1, 0, 0, 1, 1, 2, 2, 2, 2]
      (concurrentSubmits (toyDB []) (alice (JSNum.fin 100))
        "crypto-500-warmup".toList 3)).tasks.map (fun t => t.stage)
      = [Stage.done Outcome.credited, Stage.done Outcome.credited,
         Stage.done Outcome.alreadySubmitted] ∧
    allDone (runSchedule [0, 1, 0, 1, 0, 0, 1, 1, 2, 2, 2, 2]
      (concurrentSubmits (toyDB []) (alice (JSNum.fin 100)) "crypto-500-warmup".toList 3)) ∧
    (runSchedule [0, 1, 0, 1, 0, 0, 1, 1, 2, 2, 2, 2]
      (concurrentSubmits (toyDB []) (alice (JSNum.fin 100))
        "crypto-500-warmup".toList 3)).db.scores
      = [⟨"alice".toList, "crypto-500-warmup".toList, JSNum.fin 550⟩] ∧
    storedScore (runSchedule [0, 1, 0, 1, 0, 0, 1, 1, 2, 2, 2, 2]
      (concurrentSubmits (toyDB []) (alice (JSNum.fin 100))
        "crypto-500-warmup".toList 3)).db.users 1
      = some (JSNum.fin 650) :=
  have hturns : ∀ i, i < 3 → 4 ≤ [0, 1, 0, 1, 0, 0, 1, 1, 2, 2, 2, 2].count i := by decide
  have h := C2_racing_requests (toyDB []) (alice (JSNum.fin 100)) "crypto-500-warmup".toList 3
    [0, 1, 0, 1, 0, 0, 1, 1, 2, 2, 2, 2] (by decide) (by decide) (by decide) hturns
  ⟨hturns, by decide, h.1, h.2.2.2.1.trans (by decide), h.2.2.2.2.2.trans (by decide)⟩

end CTFileAPI
